import Mathlib

/-!
Verification of the dirschema core (`src/dirschema/core.py`, `adapters.py`,
`validate.py`) against its natural-language specification.

The Python code is shallowly embedded: strings are Lean `String`s and the
Python `str.split`/`str.join`/slicing primitives are re-implemented below with
Python semantics (over the underlying character lists).  Regular expressions
come from the external `re` library, so compiled patterns are modelled as
opaque matching functions (`RePattern`); only their success or failure and
their `expand` output are observable to the embedded code, which is all the
code under verification uses.
-/

namespace Dirschema

/-! ## Python string primitives -/

/-- Python `s.split(c)` on a single-character separator, over character lists.
`"".split(c) == [""]`, i.e. the result is never empty. -/
def splitOnChar (sep : Char) : List Char → List (List Char)
  | [] => [[]]
  | c :: cs =>
    match splitOnChar sep cs with
    | [] => [[]]
    | s :: ss => if c = sep then [] :: s :: ss else (c :: s) :: ss

/-- Python `sep.join(parts)` for a single-character separator, over character
lists. -/
def joinChar (sep : Char) : List (List Char) → List Char
  | [] => []
  | [s] => s
  | s :: ss => s ++ sep :: joinChar sep ss

/-- Python `s.split("/")` for strings. -/
def pySplitSlash (s : String) : List String :=
  (splitOnChar '/' s.data).map (fun l => ⟨l⟩)

/-- Python `"/".join(parts)` for strings. -/
def pyJoinSlash (parts : List String) : String :=
  ⟨joinChar '/' (parts.map String.data)⟩

/-- Python `s.startswith(p)`. -/
def pyStartsWith (s p : String) : Bool :=
  p.data.isPrefixOf s.data

/-- Python `s.endswith(p)`. -/
def pyEndsWith (s p : String) : Bool :=
  p.data.isSuffixOf s.data

/-- Python `s.rstrip("/")`: remove every trailing slash. -/
def pyRstripSlash (s : String) : String :=
  ⟨(s.data.reverse.dropWhile (fun c => c = '/')).reverse⟩

/-- The effective index of the Python slice index `i` for a sequence of
length `n`: negative indices count from the end, and the result is clamped
into `[0, n]`. -/
def pyEff (n : Nat) (i : Int) : Nat :=
  if i < 0 then n - (-i).toNat else min i.toNat n

theorem pyEff_le (n : Nat) (i : Int) : pyEff n i ≤ n := by
  unfold pyEff
  split <;> omega

/-- Python `l[a:b]` (step 1) with optional bounds, on lists. -/
def pySlice {α : Type} (l : List α) (a b : Option Int) : List α :=
  let n := l.length
  let lo := match a with | none => 0 | some i => pyEff n i
  let hi := match b with | none => n | some i => pyEff n i
  (l.drop lo).take (hi - lo)

/-! ### Basic lemmas about the split/join pair -/

theorem splitOnChar_ne_nil (sep : Char) (l : List Char) : splitOnChar sep l ≠ [] := by
  cases l with
  | nil => simp [splitOnChar]
  | cons c cs =>
    simp only [splitOnChar]
    rcases splitOnChar sep cs with _ | ⟨s, ss⟩
    · simp
    · dsimp only
      split <;> simp

/-- Joining the split recovers the original character list. -/
theorem joinChar_splitOnChar (sep : Char) (l : List Char) :
    joinChar sep (splitOnChar sep l) = l := by
  induction l with
  | nil => simp [splitOnChar, joinChar]
  | cons c cs ih =>
    simp only [splitOnChar]
    rcases h : splitOnChar sep cs with _ | ⟨s, ss⟩
    · exact absurd h (splitOnChar_ne_nil sep cs)
    · rw [h] at ih
      by_cases hc : c = sep
      · subst hc
        simp only [if_pos rfl, joinChar]
        cases ss <;> simp_all [joinChar]
      · simp only [if_neg hc]
        cases ss <;> simp_all [joinChar]

/-- Splitting never produces a chunk containing the separator. -/
theorem splitOnChar_no_sep (sep : Char) (l : List Char) :
    ∀ s ∈ splitOnChar sep l, sep ∉ s := by
  induction l with
  | nil => simp [splitOnChar]
  | cons c cs ih =>
    simp only [splitOnChar]
    rcases h : splitOnChar sep cs with _ | ⟨s, ss⟩
    · exact absurd h (splitOnChar_ne_nil sep cs)
    · rw [h] at ih
      by_cases hc : c = sep
      · subst hc
        simp only [if_pos rfl]
        intro t ht
        rcases List.mem_cons.mp ht with rfl | ht2
        · simp
        · exact ih t ht2
      · simp only [if_neg hc]
        intro t ht
        rcases List.mem_cons.mp ht with rfl | ht2
        · intro hmem
          rcases List.mem_cons.mp hmem with rfl | hmem2
          · exact hc rfl
          · exact ih s (by simp) hmem2
        · exact ih t (by simp [ht2])

/-- A chunk without the separator splits into itself alone. -/
theorem splitOnChar_of_no_sep (sep : Char) (l : List Char) (h : sep ∉ l) :
    splitOnChar sep l = [l] := by
  induction l with
  | nil => simp [splitOnChar]
  | cons c cs ih =>
    simp only [List.mem_cons, not_or] at h
    have hc : ¬ c = sep := fun hcs => h.1 hcs.symm
    simp [splitOnChar, ih h.2, hc]

/-- Splitting the join of separator-free chunks recovers the chunks. -/
theorem splitOnChar_joinChar (sep : Char) (parts : List (List Char))
    (hne : parts ≠ []) (hfree : ∀ p ∈ parts, sep ∉ p) :
    splitOnChar sep (joinChar sep parts) = parts := by
  induction parts with
  | nil => exact absurd rfl hne
  | cons p ps ih =>
    cases ps with
    | nil =>
      simp only [joinChar]
      exact splitOnChar_of_no_sep sep p (hfree p (by simp))
    | cons q qs =>
      have hjoin : joinChar sep (p :: q :: qs) = p ++ sep :: joinChar sep (q :: qs) := rfl
      rw [hjoin]
      have hp : sep ∉ p := hfree p (by simp)
      have hrest : splitOnChar sep (joinChar sep (q :: qs)) = q :: qs :=
        ih (by simp) (fun t ht => hfree t (by simp [ht]))
      clear ih hne hfree hjoin
      induction p with
      | nil => simp [splitOnChar, hrest]
      | cons c cs ihp =>
        simp only [List.mem_cons, not_or] at hp
        have hc : ¬ c = sep := fun hcs => hp.1 hcs.symm
        have := ihp hp.2
        simp only [List.cons_append, splitOnChar, List.append_eq]
        rw [this]
        simp [hc]

theorem joinChar_append (sep : Char) (a b : List (List Char))
    (ha : a ≠ []) (hb : b ≠ []) :
    joinChar sep (a ++ b) = joinChar sep a ++ sep :: joinChar sep b := by
  induction a with
  | nil => exact absurd rfl ha
  | cons p ps ih =>
    cases ps with
    | nil => cases b with
      | nil => exact absurd rfl hb
      | cons q qs => simp [joinChar]
    | cons p2 ps2 =>
      have h1 : joinChar sep ((p :: p2 :: ps2) ++ b) =
          p ++ sep :: joinChar sep ((p2 :: ps2) ++ b) := by
        cases b <;> rfl
      rw [h1, ih (by simp)]
      simp [joinChar]

theorem joinChar_eq_nil_iff (sep : Char) (parts : List (List Char))
    (hne : ∀ p ∈ parts, p ≠ []) :
    joinChar sep parts = [] ↔ parts = [] := by
  cases parts with
  | nil => simp [joinChar]
  | cons p ps =>
    cases ps with
    | nil =>
      simp only [joinChar]
      simpa using hne p (by simp)
    | cons q qs => simp [joinChar]

/-! ## Model of compiled regular expressions

The code under verification uses the external `re` library only through
`Pattern.fullmatch` and `Match.expand`.  A compiled pattern is therefore
modelled as its source text together with an opaque full-match function; a
match object is modelled by its (opaque) `expand` function.  Only match
success/failure and the expanded strings flow back into the embedded code,
and no theorem below depends on the value produced by `expand`. -/

/-- Model of a Python `re.Match` object: only `expand` is used by dirschema. -/
structure ReMatch where
  expand : String → String

/-- Model of a compiled Python `re.Pattern`: the pattern source string and the
`fullmatch` function. -/
structure RePattern where
  pattern : String
  fullmatch : String → Option ReMatch

/-! ## PathSlice (`core.py`) -/

/-- `PathSlice` from `core.py`: a path split into an optional segment prefix,
the inner slice, and an optional segment suffix. -/
structure PathSlice where
  slicePre : Option String
  sliceStr : String
  sliceSuf : Option String
deriving DecidableEq, Repr

/-- The upper bound Python uses for the inner slice:
`stop if stop != 0 else None` (both `None` and `0` mean "to the end"). -/
def innerHiOf (stop : Option Int) : Option Int :=
  match stop with
  | none => none
  | some i => if i = 0 then none else some i

/-- Python truthiness of the optional integer `stop` (`if stop:`). -/
def stopTruthy (stop : Option Int) : Bool :=
  match stop with
  | none => false
  | some i => i != 0

/-- `PathSlice.into` from `core.py`: slice into a path, splitting on the
slashes.  `pre = "/".join(segs[: start if start else 0])`,
`inner = "/".join(segs[start : stop if stop != 0 else None])`,
`suf = "/".join(segs[stop:] if stop else [])`; empty `pre`/`suf` become
`None`. -/
def PathSlice.into (path : String) (start stop : Option Int) : PathSlice :=
  let segs := splitOnChar '/' path.data
  let preL := pySlice segs none (some (start.getD 0))
  let innerL := pySlice segs start (innerHiOf stop)
  let sufL := if stopTruthy stop then pySlice segs stop none else []
  { slicePre := if joinChar '/' preL = [] then none else some ⟨joinChar '/' preL⟩
    sliceStr := ⟨joinChar '/' innerL⟩
    sliceSuf := if joinChar '/' sufL = [] then none else some ⟨joinChar '/' sufL⟩ }

/-- `PathSlice.unslice` from `core.py`:
`"/".join([x for x in [self.slicePre, self.sliceStr, self.sliceSuf] if x])`
(Python truthiness drops both `None` and the empty string). -/
def PathSlice.unslice (ps : PathSlice) : String :=
  pyJoinSlash (([ps.slicePre, some ps.sliceStr, ps.sliceSuf].filterMap id).filter
    (fun s => s ≠ ""))

/-- `PathSlice._def_pat = re.compile("(.*)")`: matches every string.  The
`expand` behaviour of the real engine substitutes capture groups into the
template; it is modelled as the identity on the template (no theorem below
observes expanded values). -/
def PathSlice.defPat : RePattern :=
  { pattern := "(.*)", fullmatch := fun _s => some ⟨fun t => t⟩ }

/-- `PathSlice.match` from `core.py` (named `matchOn` here since `match` is a
Lean keyword): full regex match of `pat or self._def_pat` on the current
slice.  The `str` branch of the Python method (compiling a string pattern) is
not modelled: every caller in the code under verification passes a compiled
pattern or `None`. -/
def PathSlice.matchOn (ps : PathSlice) (pat : Option RePattern) : Option ReMatch :=
  (pat.getD PathSlice.defPat).fullmatch ps.sliceStr

/-- `PathSlice.rewrite` from `core.py`: on a successful match return a copy,
with the slice replaced by the substitution expansion when `sub` is given;
`None` on match failure. -/
def PathSlice.rewrite (ps : PathSlice) (pat : Option RePattern) (sub : Option String) :
    Option PathSlice :=
  match ps.matchOn pat with
  | some m =>
    some (match sub with
      | none => ps
      | some sb => { ps with sliceStr := m.expand sb })
  | none => none

/-! ### The slice/unslice round-trip -/

/-- The effective start index of `PathSlice.into` on `n` segments. -/
def sliceEffStart (n : Nat) (start : Option Int) : Nat :=
  pyEff n (start.getD 0)

/-- The effective stop index of `PathSlice.into` on `n` segments (`None` and
`0` both mean `n`). -/
def sliceEffStop (n : Nat) (stop : Option Int) : Nat :=
  match stop with
  | none => n
  | some i => if i = 0 then n else pyEff n i

/-- A path string as in the data model of the spec: either the root `""` or a
`/`-separated string whose segments are all non-empty. -/
def PathNormalized (p : String) : Prop :=
  p = "" ∨ ∀ s ∈ splitOnChar '/' p.data, s ≠ []

/-- Formalization of a "valid pair of slice indices" for a path: the effective
Python slice window is non-degenerate, i.e. the effective start does not
exceed the effective stop (with `stop ∈ {None, 0}` meaning "through end").
Every inherited context produced by the evaluator satisfies this (its
`matchStop` is always `0`). -/
def ValidSlicePair (p : String) (start stop : Option Int) : Prop :=
  sliceEffStart (splitOnChar '/' p.data).length start ≤
    sliceEffStop (splitOnChar '/' p.data).length stop

theorem sliceEffStop_le (n : Nat) (stop : Option Int) : sliceEffStop n stop ≤ n := by
  unfold sliceEffStop
  cases stop with
  | none => simp
  | some i =>
    dsimp only
    split
    · simp
    · exact pyEff_le n i

theorem into_preL (segs : List (List Char)) (start : Option Int) :
    pySlice segs none (some (start.getD 0)) = segs.take (sliceEffStart segs.length start) := by
  simp [pySlice, sliceEffStart]

theorem into_innerL (segs : List (List Char)) (start stop : Option Int) :
    pySlice segs start (innerHiOf stop) =
      (segs.drop (sliceEffStart segs.length start)).take
        (sliceEffStop segs.length stop - sliceEffStart segs.length start) := by
  unfold pySlice innerHiOf sliceEffStart sliceEffStop
  cases start with
  | none =>
    cases stop with
    | none => simp [pyEff]
    | some i =>
      by_cases hi : i = 0 <;> simp [hi, pyEff]
  | some j =>
    cases stop with
    | none => simp
    | some i =>
      by_cases hi : i = 0 <;> simp [hi]

theorem into_sufL (segs : List (List Char)) (stop : Option Int) :
    (if stopTruthy stop then pySlice segs stop none else []) =
      segs.drop (sliceEffStop segs.length stop) := by
  unfold stopTruthy sliceEffStop pySlice
  cases stop with
  | none => simp
  | some i =>
    by_cases hi : i = 0
    · simp [hi]
    · have : (segs.drop (pyEff segs.length i)).take (segs.length - pyEff segs.length i)
          = segs.drop (pyEff segs.length i) := by
        have hlen : (segs.drop (pyEff segs.length i)).length =
            segs.length - pyEff segs.length i := by simp
        rw [← hlen, List.take_length]
      simp only [hi, if_neg (by simp [hi] : ¬ (i = 0))]
      simpa [hi] using this

/-- How `PathSlice.into` decomposes the segment list: prefix, window, suffix. -/
theorem into_eq (p : String) (start stop : Option Int) :
    PathSlice.into p start stop =
      (let segs := splitOnChar '/' p.data
       let a := sliceEffStart segs.length start
       let b := sliceEffStop segs.length stop
       let A := segs.take a
       let B := (segs.drop a).take (b - a)
       let C := segs.drop b
       { slicePre := if joinChar '/' A = [] then none else some ⟨joinChar '/' A⟩
         sliceStr := ⟨joinChar '/' B⟩
         sliceSuf := if joinChar '/' C = [] then none else some ⟨joinChar '/' C⟩ }) := by
  simp only [PathSlice.into]
  rw [into_preL, into_innerL, into_sufL]

theorem strMk_eq_empty_iff (l : List Char) : (⟨l⟩ : String) = "" ↔ l = [] := by
  constructor
  · intro h
    exact congrArg String.data h
  · rintro rfl
    rfl

/-- Key algebra of `unslice`: joining the three components (dropping the empty
ones) recovers the join of the concatenation, provided no component joins to
an empty string unless it is the empty list of segments. -/
theorem joinFilter_decomp (A B C : List (List Char))
    (hA : A = [] ∨ joinChar '/' A ≠ [])
    (hB : B = [] ∨ joinChar '/' B ≠ [])
    (hC : C = [] ∨ joinChar '/' C ≠ []) :
    (PathSlice.unslice
      { slicePre := if joinChar '/' A = [] then none else some ⟨joinChar '/' A⟩
        sliceStr := ⟨joinChar '/' B⟩
        sliceSuf := if joinChar '/' C = [] then none else some ⟨joinChar '/' C⟩ }) =
      ⟨joinChar '/' (A ++ B ++ C)⟩ := by
  by_cases hja : joinChar '/' A = [] <;>
    by_cases hjb : joinChar '/' B = [] <;>
      by_cases hjc : joinChar '/' C = []
  all_goals
    first
    | (have ha : A = [] := hA.resolve_right (fun h => h hja)
       have hb : B = [] := hB.resolve_right (fun h => h hjb)
       have hc : C = [] := hC.resolve_right (fun h => h hjc)
       subst ha hb hc
       simp [PathSlice.unslice, pyJoinSlash, joinChar])
    | (have ha : A = [] := hA.resolve_right (fun h => h hja)
       have hb : B = [] := hB.resolve_right (fun h => h hjb)
       subst ha hb
       have hcne : (⟨joinChar '/' C⟩ : String) ≠ "" := by
         rw [Ne, strMk_eq_empty_iff]; exact hjc
       simp [PathSlice.unslice, pyJoinSlash, hja, hjb, hjc, hcne, joinChar])
    | (have ha : A = [] := hA.resolve_right (fun h => h hja)
       have hc : C = [] := hC.resolve_right (fun h => h hjc)
       subst ha hc
       have hbne : (⟨joinChar '/' B⟩ : String) ≠ "" := by
         rw [Ne, strMk_eq_empty_iff]; exact hjb
       simp [PathSlice.unslice, pyJoinSlash, hja, hjb, hjc, hbne, joinChar])
    | (have hb : B = [] := hB.resolve_right (fun h => h hjb)
       have hc : C = [] := hC.resolve_right (fun h => h hjc)
       subst hb hc
       have hane : (⟨joinChar '/' A⟩ : String) ≠ "" := by
         rw [Ne, strMk_eq_empty_iff]; exact hja
       simp [PathSlice.unslice, pyJoinSlash, hja, hjb, hjc, hane, joinChar])
    | (have ha : A = [] := hA.resolve_right (fun h => h hja)
       subst ha
       have hbn : B ≠ [] := by rintro rfl; exact hjb rfl
       have hcn : C ≠ [] := by rintro rfl; exact hjc rfl
       have hbne : (⟨joinChar '/' B⟩ : String) ≠ "" := by
         rw [Ne, strMk_eq_empty_iff]; exact hjb
       have hcne : (⟨joinChar '/' C⟩ : String) ≠ "" := by
         rw [Ne, strMk_eq_empty_iff]; exact hjc
       simp [PathSlice.unslice, pyJoinSlash, hja, hjb, hjc, hbne, hcne,
         joinChar_append _ _ _ hbn hcn, joinChar])
    | (have hb : B = [] := hB.resolve_right (fun h => h hjb)
       subst hb
       have han : A ≠ [] := by rintro rfl; exact hja rfl
       have hcn : C ≠ [] := by rintro rfl; exact hjc rfl
       have hane : (⟨joinChar '/' A⟩ : String) ≠ "" := by
         rw [Ne, strMk_eq_empty_iff]; exact hja
       have hcne : (⟨joinChar '/' C⟩ : String) ≠ "" := by
         rw [Ne, strMk_eq_empty_iff]; exact hjc
       simp [PathSlice.unslice, pyJoinSlash, hja, hjb, hjc, hane, hcne,
         joinChar_append _ _ _ han hcn, joinChar])
    | (have hc : C = [] := hC.resolve_right (fun h => h hjc)
       subst hc
       have han : A ≠ [] := by rintro rfl; exact hja rfl
       have hbn : B ≠ [] := by rintro rfl; exact hjb rfl
       have hane : (⟨joinChar '/' A⟩ : String) ≠ "" := by
         rw [Ne, strMk_eq_empty_iff]; exact hja
       have hbne : (⟨joinChar '/' B⟩ : String) ≠ "" := by
         rw [Ne, strMk_eq_empty_iff]; exact hjb
       simp [PathSlice.unslice, pyJoinSlash, hja, hjb, hjc, hane, hbne,
         joinChar_append _ _ _ han hbn, joinChar])
    | (have han : A ≠ [] := by rintro rfl; exact hja rfl
       have hbn : B ≠ [] := by rintro rfl; exact hjb rfl
       have hcn : C ≠ [] := by rintro rfl; exact hjc rfl
       have hane : (⟨joinChar '/' A⟩ : String) ≠ "" := by
         rw [Ne, strMk_eq_empty_iff]; exact hja
       have hbne : (⟨joinChar '/' B⟩ : String) ≠ "" := by
         rw [Ne, strMk_eq_empty_iff]; exact hjb
       have hcne : (⟨joinChar '/' C⟩ : String) ≠ "" := by
         rw [Ne, strMk_eq_empty_iff]; exact hjc
       have hbc : B ++ C ≠ [] := by
         intro h
         exact hbn (List.append_eq_nil.mp h).1
       simp [PathSlice.unslice, pyJoinSlash, hja, hjb, hjc, hane, hbne, hcne,
         List.append_assoc, joinChar_append _ _ _ han hbc,
         joinChar_append _ _ _ hbn hcn, joinChar])

instance (p : String) : Decidable (PathNormalized p) := by
  unfold PathNormalized
  infer_instance

instance (p : String) (start stop : Option Int) :
    Decidable (ValidSlicePair p start stop) := by
  unfold ValidSlicePair
  infer_instance

/-- The slice/unslice invariant of `core.py`, for normalized paths and valid
slice windows. -/
theorem into_unslice (p : String) (start stop : Option Int)
    (hnorm : PathNormalized p) (hvalid : ValidSlicePair p start stop) :
    (PathSlice.into p start stop).unslice = p := by
  rw [into_eq]
  simp only []
  have hab : sliceEffStart (splitOnChar '/' p.data).length start ≤
      sliceEffStop (splitOnChar '/' p.data).length stop := hvalid
  set segs := splitOnChar '/' p.data with hsegs
  set a := sliceEffStart segs.length start with ha
  set b := sliceEffStop segs.length stop with hb
  have hbn : b ≤ segs.length := sliceEffStop_le _ _
  have hdecomp : segs.take a ++ (segs.drop a).take (b - a) ++ segs.drop b = segs := by
    have h1 : (segs.drop a).take (b - a) = (segs.take b).drop a :=
      (List.drop_take b a segs).symm
    have h2 : segs.take a = (segs.take b).take a := by
      rw [List.take_take, min_eq_left hab]
    rw [h1, h2, List.take_append_drop, List.take_append_drop]
  rcases hnorm with hroot | hall
  · -- the root path: every component joins to the empty string
    have hdata : p.data = [] := congrArg String.data hroot
    have hsegs1 : segs = [[]] := by rw [hsegs, hdata]; rfl
    have hjoinsub : ∀ l : List (List Char), l = [] ∨ l = [[]] → joinChar '/' l = [] := by
      rintro l (rfl | rfl) <;> rfl
    have htake : ∀ k, List.take k [([] : List Char)] = [] ∨
        List.take k [([] : List Char)] = [[]] := by
      intro k
      cases k <;> simp
    have hdrop : ∀ k, List.drop k [([] : List Char)] = [] ∨
        List.drop k [([] : List Char)] = [[]] := by
      intro k
      cases k <;> simp
    have hA : joinChar '/' (segs.take a) = [] := by
      rw [hsegs1]; exact hjoinsub _ (htake a)
    have hB : joinChar '/' ((segs.drop a).take (b - a)) = [] := by
      rw [hsegs1]
      rcases hdrop a with h | h <;> rw [h]
      · simp [joinChar]
      · exact hjoinsub _ (htake (b - a))
    have hC : joinChar '/' (segs.drop b) = [] := by
      rw [hsegs1]; exact hjoinsub _ (hdrop b)
    rw [hA, hB, hC, hroot]
    simp [PathSlice.unslice, pyJoinSlash]
    rfl
  · -- all segments non-empty
    have hsub : ∀ (l : List (List Char)), (∀ x ∈ l, x ∈ segs) → l = [] ∨
        joinChar '/' l ≠ [] := by
      intro l hl
      by_cases h : l = []
      · exact Or.inl h
      · refine Or.inr ?_
        intro hnil
        exact h ((joinChar_eq_nil_iff '/' l (fun x hx => hall x (hl x hx))).mp hnil)
    have := joinFilter_decomp (segs.take a) ((segs.drop a).take (b - a)) (segs.drop b)
      (hsub _ (fun x hx => List.take_subset a segs hx))
      (hsub _ (fun x hx => List.drop_subset a segs (List.take_subset _ _ hx)))
      (hsub _ (fun x hx => List.drop_subset b segs hx))
    rw [this, hdecomp, hsegs, joinChar_splitOnChar]

/-- C3: for every normalized path `p` and every valid pair of optional slice
indices `(start, stop)` (formalized as `ValidSlicePair`: effective start at
most effective stop, `stop ∈ {None, 0}` meaning "through end"),
`PathSlice.into(p, start, stop).unslice() == p`. -/
theorem C3_pathslice_roundtrip (p : String) (start stop : Option Int)
    (hnorm : PathNormalized p) (hvalid : ValidSlicePair p start stop) :
    (PathSlice.into p start stop).unslice = p :=
  into_unslice p start stop hnorm hvalid

theorem C3_pathslice_roundtrip_witness :
    PathNormalized "a/b/c" ∧ ValidSlicePair "a/b/c" (some 1) (some (-1)) ∧
      (PathSlice.into "a/b/c" (some 1) (some (-1))).unslice = "a/b/c" :=
  ⟨by decide, by decide,
    C3_pathslice_roundtrip "a/b/c" (some 1) (some (-1)) (by decide) (by decide)⟩

/-- C9: a rule with a match pattern but no rewrite leaves the evaluated path
unchanged: `PathSlice.rewrite` with substitution `None` returns the slice
unmodified on match success, and `unslice` then restores the original path
(`nextPath == path` in `validate_path`), for normalized paths and valid
inherited slice indices (every context the evaluator builds has
`matchStop = 0`, which is always valid). -/
theorem C9_match_no_rewrite_keeps_path (p : String) (start stop : Option Int)
    (pat : Option RePattern) (q : PathSlice)
    (hnorm : PathNormalized p) (hvalid : ValidSlicePair p start stop)
    (hmatch : (PathSlice.into p start stop).rewrite pat none = some q) :
    q = PathSlice.into p start stop ∧ q.unslice = p := by
  have hq : q = PathSlice.into p start stop := by
    unfold PathSlice.rewrite at hmatch
    rcases h : (PathSlice.into p start stop).matchOn pat with _ | m
    · rw [h] at hmatch
      exact absurd hmatch (by simp)
    · rw [h] at hmatch
      simpa using hmatch.symm
  exact ⟨hq, hq ▸ into_unslice p start stop hnorm hvalid⟩

theorem C9_match_no_rewrite_keeps_path_witness :
    (PathSlice.into "a/b" (some 0) (some 0)).rewrite
        (some { pattern := "a\\x2fb", fullmatch := fun s => some ⟨fun _t => s⟩ }) none =
      some (PathSlice.into "a/b" (some 0) (some 0)) ∧
    (PathSlice.into "a/b" (some 0) (some 0)).unslice = "a/b" := by
  refine ⟨rfl, ?_⟩
  have h := C9_match_no_rewrite_keeps_path "a/b" (some 0) (some 0)
    (some { pattern := "a\\x2fb", fullmatch := fun s => some ⟨fun _t => s⟩ })
    (PathSlice.into "a/b" (some 0) (some 0)) (by decide) (by decide) rfl
  exact h.2

/-! ## MetaConvention (`core.py`)

`is_meta` and `meta_for` use `pathlib.Path(path).parts` and
`Path().joinpath(*parts)`.  For relative paths these split on `/` and drop
empty components; `joinpath` additionally flattens components that themselves
contain `/`.  pathlib also removes single-dot (`.`) components; that
normalization is not modelled, so every theorem below restricts paths and
convention fields to be free of `.` segments (absolute components, which would
reset `joinpath`, are likewise excluded by the no-`/` restrictions). -/

/-- Model of `pathlib.Path(s).parts` for a relative, `.`-free path string. -/
def pyPathParts (s : String) : List String :=
  ((splitOnChar '/' s.data).filter (fun l => l ≠ [])).map (fun l => ⟨l⟩)

/-- Model of `str(Path().joinpath(*comps))` for relative, `.`-free components:
components are flattened on `/`, empty parts are dropped, and an empty result
renders as `"."`. -/
def pyJoinPath (comps : List String) : String :=
  let parts := ((comps.map (fun c => splitOnChar '/' c.data)).flatten).filter
    (fun l => l ≠ [])
  if parts = [] then "." else ⟨joinChar '/' parts⟩

/-- `MetaConvention` from `core.py`: filename convention for metadata files.
Its pydantic validator requires at least one of `filePrefix`, `fileSuffix` to
be non-empty. -/
structure MetaConvention where
  pathPrefix : String := ""
  pathSuffix : String := ""
  filePrefix : String := ""
  fileSuffix : String := "_meta.json"
deriving DecidableEq, Repr

/-- `MetaConvention.is_meta` from `core.py`: check whether the given path is a
metadata file according to the convention. -/
def MetaConvention.is_meta (conv : MetaConvention) (path : String) : Bool :=
  let prts := pyPathParts path
  if prts.length = 0 then false
  else if conv.filePrefix ≠ "" ∧ ¬ pyStartsWith (prts.getLast?.getD "") conv.filePrefix
    then false
  else if conv.fileSuffix ≠ "" ∧ ¬ pyEndsWith (prts.getLast?.getD "") conv.fileSuffix
    then false
  else
    let pieces := (if conv.pathPrefix ≠ "" then 1 else 0) +
      (if conv.pathSuffix ≠ "" then 1 else 0)
    if prts.length < 1 + pieces then false
    else
      (conv.pathPrefix = "" ∨ prts.headD "" = conv.pathPrefix) ∧
        (conv.pathSuffix = "" ∨ prts.getD (prts.length - 2) "" = conv.pathSuffix)

/-- `MetaConvention.meta_for` from `core.py`: metadata filename for the
provided path. -/
def MetaConvention.meta_for (conv : MetaConvention) (path : String)
    (is_dir : Bool := false) : String :=
  let ps := pyPathParts path
  let newp0 : List String :=
    (if conv.pathPrefix ≠ "" then [conv.pathPrefix] else []) ++ ps.dropLast ++
      (if is_dir = false ∧ conv.pathSuffix ≠ "" then [conv.pathSuffix] else [])
  let name := ps.getLast?.getD ""
  let newp : List String :=
    if is_dir then
      newp0 ++ [name] ++ (if conv.pathSuffix ≠ "" then [conv.pathSuffix] else []) ++
        [conv.filePrefix ++ conv.fileSuffix]
    else
      newp0 ++ [conv.filePrefix ++ name ++ conv.fileSuffix]
  pyJoinPath newp

/-- Sanity check against the pinned test values of `test_core.py`. -/
theorem meta_conv_defaults_check :
    (MetaConvention.meta_for {} "" = "_meta.json") ∧
      (MetaConvention.meta_for {} "foo" = "foo_meta.json") ∧
      (MetaConvention.meta_for {} "foo" true = "foo/_meta.json") ∧
      (MetaConvention.is_meta {} "foo/bar_meta.json" = true) ∧
      (MetaConvention.is_meta {} "foo/bar_meta.jsonbaz" = false) ∧
      (MetaConvention.is_meta {} "" = false) := by
  decide

/-- C4 fails as stated: the stated invariant (one of `filePrefix`,
`fileSuffix` non-empty) does not constrain the *path* fields, and a
`pathPrefix` containing a separator is flattened by `joinpath` in `meta_for`
but compared against a single segment in `is_meta`. -/
theorem C4_counterexample :
    (let conv : MetaConvention :=
      { pathPrefix := "a/b", pathSuffix := "", filePrefix := "",
        fileSuffix := "_meta.json" }
     (conv.filePrefix ≠ "" ∨ conv.fileSuffix ≠ "") ∧
       conv.meta_for "foo" false = "a/b/foo_meta.json" ∧
       conv.is_meta (conv.meta_for "foo" false) = false) := by
  decide

/-! ### The metadata companion round-trip (amended C4) -/

/-- A convention field that denotes (part of) a single relative path segment:
no separator and not the pathlib-normalized `"."` (it may be empty). -/
def FieldOK (s : String) : Prop := '/' ∉ s.data ∧ s ≠ "."

/-- A path of the spec's data model (§3), restricted to the modelled pathlib
domain: the root, or non-empty `.`-free `/`-separated segments. -/
def MetaPathOK (p : String) : Prop :=
  p = "" ∨ ∀ l ∈ splitOnChar '/' p.data, l ≠ [] ∧ l ≠ ['.']

instance (s : String) : Decidable (FieldOK s) := by
  unfold FieldOK; infer_instance

instance (p : String) : Decidable (MetaPathOK p) := by
  unfold MetaPathOK; infer_instance

theorem pyPathParts_ne_empty (p : String) : ∀ x ∈ pyPathParts p, x ≠ "" := by
  intro x hx
  simp only [pyPathParts, List.mem_map, List.mem_filter] at hx
  obtain ⟨l, ⟨_, hl⟩, rfl⟩ := hx
  rw [Ne, strMk_eq_empty_iff]
  simpa using hl

theorem pyPathParts_no_sep (p : String) : ∀ x ∈ pyPathParts p, '/' ∉ x.data := by
  intro x hx
  simp only [pyPathParts, List.mem_map, List.mem_filter] at hx
  obtain ⟨l, ⟨hl, _⟩, rfl⟩ := hx
  exact splitOnChar_no_sep '/' p.data l hl

theorem flatten_map_singleton (cs : List String) :
    (cs.map (fun c => [c.data])).flatten = cs.map String.data := by
  induction cs with
  | nil => rfl
  | cons c cs ih => simp [ih]

theorem filter_map_data (cs : List String) :
    (cs.map String.data).filter (fun l => l ≠ []) =
      (cs.filter (fun c => c ≠ "")).map String.data := by
  induction cs with
  | nil => rfl
  | cons c cs ih =>
    by_cases hc : c = ""
    · subst hc
      simpa using ih
    · have hd : c.data ≠ [] := fun h => hc (String.ext h)
      simp [List.filter_cons, hc, hd]
      simpa using ih

/-- Parsing back a joined list of separator-free components drops exactly the
empty ones. -/
theorem pyPathParts_pyJoinPath (comps : List String)
    (hsl : ∀ c ∈ comps, '/' ∉ c.data)
    (hne : comps.filter (fun c => c ≠ "") ≠ []) :
    pyPathParts (pyJoinPath comps) = comps.filter (fun c => c ≠ "") := by
  have hmap : comps.map (fun c => splitOnChar '/' c.data) = comps.map (fun c => [c.data]) := by
    apply List.map_congr_left
    intro c hc
    exact splitOnChar_of_no_sep '/' c.data (hsl c hc)
  have hparts : ((comps.map (fun c => splitOnChar '/' c.data)).flatten).filter
      (fun l => l ≠ []) = (comps.filter (fun c => c ≠ "")).map String.data := by
    rw [hmap, flatten_map_singleton, filter_map_data]
  have hpartsne : ((comps.map (fun c => splitOnChar '/' c.data)).flatten).filter
      (fun l => l ≠ []) ≠ [] := by
    rw [hparts]
    simp only [Ne, List.map_eq_nil_iff]
    exact hne
  unfold pyJoinPath
  simp only [hparts, if_neg (hparts ▸ hpartsne)]
  unfold pyPathParts
  have hsepfree : ∀ l ∈ (comps.filter (fun c => c ≠ "")).map String.data, '/' ∉ l := by
    intro l hl
    simp only [List.mem_map] at hl
    obtain ⟨c, hc, rfl⟩ := hl
    exact hsl c (List.mem_of_mem_filter hc)
  rw [show ((⟨joinChar '/' ((comps.filter (fun c => c ≠ "")).map String.data)⟩ :
      String).data) = joinChar '/' ((comps.filter (fun c => c ≠ "")).map String.data)
    from rfl]
  rw [splitOnChar_joinChar '/' _ (by simpa using hne) hsepfree]
  have hnonnil : ∀ l ∈ (comps.filter (fun c => c ≠ "")).map String.data, l ≠ [] := by
    intro l hl
    simp only [List.mem_map] at hl
    obtain ⟨c, hc, rfl⟩ := hl
    intro hd
    have hcne : c ≠ "" := by simpa using (List.mem_filter.mp hc).2
    exact hcne (String.ext hd)
  rw [List.filter_eq_self.mpr (by
    intro a ha
    simpa using hnonnil a ha)]
  rw [List.map_map]
  have hid : (fun l => (⟨l⟩ : String)) ∘ String.data = id := by
    funext x
    rfl
  rw [hid, List.map_id]

theorem pyStartsWith_append (a b : String) : pyStartsWith (a ++ b) a = true := by
  unfold pyStartsWith
  rw [List.isPrefixOf_iff_prefix]
  exact String.data_append a b ▸ List.prefix_append a.data b.data

theorem pyEndsWith_append (a b : String) : pyEndsWith (a ++ b) b = true := by
  unfold pyEndsWith
  rw [List.isSuffixOf_iff_suffix]
  exact String.data_append a b ▸ List.suffix_append a.data b.data

theorem string_append_ne_empty_left (a b : String) (h : a ≠ "") : a ++ b ≠ "" := by
  intro hab
  have := congrArg String.data hab
  rw [String.data_append] at this
  exact h (String.ext (List.append_eq_nil.mp this).1)

theorem string_append_ne_empty_right (a b : String) (h : b ≠ "") : a ++ b ≠ "" := by
  intro hab
  have := congrArg String.data hab
  rw [String.data_append] at this
  exact h (String.ext (List.append_eq_nil.mp this).2)

theorem getD_append_pair {α : Type} [Inhabited α] (X : List α) (a b d : α) :
    (X ++ [a, b]).getD ((X ++ [a, b]).length - 2) d = a := by
  have hlen : (X ++ [a, b]).length = X.length + 2 := by simp
  rw [hlen]
  simp only [Nat.add_sub_cancel]
  rw [List.getD_eq_getElem?_getD, List.getElem?_append_right (Nat.le_refl _)]
  simp

/-- `is_meta` succeeds on any parts list of the shape `front ++ [m]` whose
last element carries the convention's file affixes, whose head is the
`pathPrefix` when one is set, whose penultimate element is the `pathSuffix`
when one is set, and which is long enough. -/
theorem is_meta_shape (conv : MetaConvention) (path : String) (front : List String)
    (m : String)
    (hparts : pyPathParts path = front ++ [m])
    (hstart : pyStartsWith m conv.filePrefix = true)
    (hend : pyEndsWith m conv.fileSuffix = true)
    (hhead : conv.pathPrefix ≠ "" → (front ++ [m]).headD "" = conv.pathPrefix)
    (hsnd : conv.pathSuffix ≠ "" → ∃ X, front = X ++ [conv.pathSuffix])
    (hlen : 1 + ((if conv.pathPrefix ≠ "" then 1 else 0) +
      (if conv.pathSuffix ≠ "" then 1 else 0)) ≤ (front ++ [m]).length) :
    conv.is_meta path = true := by
  unfold MetaConvention.is_meta
  rw [hparts]
  simp only []
  have hlast : (front ++ [m]).getLast?.getD "" = m := by
    rw [List.getLast?_concat]
    rfl
  have hlen0 : ¬ ((front ++ [m]).length = 0) := by simp
  rw [if_neg hlen0]
  rw [hlast]
  rw [if_neg (by simp [hstart]), if_neg (by simp [hend])]
  rw [if_neg (by omega)]
  simp only [decide_eq_true_eq]
  constructor
  · by_cases hpp : conv.pathPrefix = ""
    · exact Or.inl hpp
    · exact Or.inr (hhead hpp)
  · by_cases hps : conv.pathSuffix = ""
    · exact Or.inl hps
    · refine Or.inr ?_
      obtain ⟨X, hX⟩ := hsnd hps
      subst hX
      have : X ++ [conv.pathSuffix] ++ [m] = X ++ [conv.pathSuffix, m] := by simp
      rw [this, getD_append_pair]

theorem string_append_assoc (a b c : String) : (a ++ b) ++ c = a ++ (b ++ c) :=
  String.ext (by simp [String.data_append])

theorem no_sep_append (a b : String) (ha : '/' ∉ a.data) (hb : '/' ∉ b.data) :
    '/' ∉ (a ++ b).data := by
  rw [String.data_append]
  simp only [List.mem_append]
  rintro (h | h)
  · exact ha h
  · exact hb h

theorem fieldBlock_filter (s : String) :
    ((if s ≠ "" then [s] else []) : List String).filter (fun c => c ≠ "") =
      (if s ≠ "" then [s] else []) := by
  by_cases h : s = "" <;> simp [h]

theorem fieldBlock_sl (s : String) (hs : '/' ∉ s.data) :
    ∀ c ∈ ((if s ≠ "" then [s] else []) : List String), '/' ∉ c.data := by
  by_cases h : s = "" <;> simp [h] <;> exact hs

theorem fieldBlock_len (s : String) :
    ((if s ≠ "" then [s] else []) : List String).length = if s ≠ "" then 1 else 0 := by
  by_cases h : s = "" <;> simp [h]

/-- Amended C4: `is_meta(meta_for(p, is_dir))` holds for every convention
whose `filePrefix`/`fileSuffix` invariant holds and whose four fields are
single-segment-safe (no `/`, not `.`), on every normalized path.  (The
invariant alone is not enough; see the counterexample.) -/
theorem C4_meta_roundtrip_amended (conv : MetaConvention) (p : String) (d : Bool)
    (hinv : conv.filePrefix ≠ "" ∨ conv.fileSuffix ≠ "")
    (h1 : FieldOK conv.pathPrefix) (h2 : FieldOK conv.pathSuffix)
    (h3 : FieldOK conv.filePrefix) (h4 : FieldOK conv.fileSuffix)
    (hpath : MetaPathOK p) :
    conv.is_meta (conv.meta_for p d) = true := by
  have hns := pyPathParts_ne_empty p
  have hsl := pyPathParts_no_sep p
  set ps := pyPathParts p with hps
  set name := ps.getLast?.getD "" with hname
  have hnamed : '/' ∉ name.data := by
    rcases hlast : ps.getLast? with _ | last
    · rw [hname, hlast]
      simp
    · have hmem : last ∈ ps := List.mem_of_mem_getLast? hlast
      rw [hname, hlast]
      exact hsl last hmem
  have hdl_filter : ps.dropLast.filter (fun c => c ≠ "") = ps.dropLast :=
    List.filter_eq_self.mpr (fun a ha => by
      simpa using hns a (List.dropLast_subset ps ha))
  have hdl_sl : ∀ x ∈ ps.dropLast, '/' ∉ x.data :=
    fun x hx => hsl x (List.dropLast_subset ps hx)
  have hppL_sl := fieldBlock_sl conv.pathPrefix h1.1
  have hpsL_sl := fieldBlock_sl conv.pathSuffix h2.1
  cases d with
  | false =>
    set mF := conv.filePrefix ++ name ++ conv.fileSuffix with hmF
    have hm : conv.meta_for p false = pyJoinPath
        ((if conv.pathPrefix ≠ "" then [conv.pathPrefix] else []) ++ ps.dropLast ++
          (if conv.pathSuffix ≠ "" then [conv.pathSuffix] else []) ++ [mF]) := by
      simp only [MetaConvention.meta_for]
      rw [← hps]
      simp only [Bool.false_eq_true, if_false, true_and, hname, hmF]
    have hmFne : mF ≠ "" := by
      rcases hinv with h | h
      · exact string_append_ne_empty_left _ _
          (string_append_ne_empty_left _ _ h)
      · exact string_append_ne_empty_right _ _ h
    have hmFsl : '/' ∉ mF.data :=
      no_sep_append _ _ (no_sep_append _ _ h3.1 hnamed) h4.1
    have hcomp_sl : ∀ c ∈ (if conv.pathPrefix ≠ "" then [conv.pathPrefix] else []) ++
        ps.dropLast ++ (if conv.pathSuffix ≠ "" then [conv.pathSuffix] else []) ++ [mF],
        '/' ∉ c.data := by
      intro c hc
      simp only [List.mem_append, List.mem_singleton] at hc
      rcases hc with ((hc | hc) | hc) | rfl
      · exact hppL_sl c hc
      · exact hdl_sl c hc
      · exact hpsL_sl c hc
      · exact hmFsl
    have hfilter : ((if conv.pathPrefix ≠ "" then [conv.pathPrefix] else []) ++
        ps.dropLast ++ (if conv.pathSuffix ≠ "" then [conv.pathSuffix] else []) ++
          [mF]).filter (fun c => c ≠ "") =
        (if conv.pathPrefix ≠ "" then [conv.pathPrefix] else []) ++ ps.dropLast ++
          (if conv.pathSuffix ≠ "" then [conv.pathSuffix] else []) ++ [mF] := by
      simp only [List.filter_append, fieldBlock_filter, hdl_filter]
      simp [hmFne]
    have hfilterne : ((if conv.pathPrefix ≠ "" then [conv.pathPrefix] else []) ++
        ps.dropLast ++ (if conv.pathSuffix ≠ "" then [conv.pathSuffix] else []) ++
          [mF]).filter (fun c => c ≠ "") ≠ [] := by
      rw [hfilter]
      simp
    have hparts := pyPathParts_pyJoinPath _ hcomp_sl hfilterne
    rw [hfilter] at hparts
    rw [hm]
    refine is_meta_shape conv _
      ((if conv.pathPrefix ≠ "" then [conv.pathPrefix] else []) ++ ps.dropLast ++
        (if conv.pathSuffix ≠ "" then [conv.pathSuffix] else [])) mF hparts ?_ ?_ ?_ ?_ ?_
    · rw [hmF, string_append_assoc]
      exact pyStartsWith_append _ _
    · rw [hmF]
      exact pyEndsWith_append _ _
    · intro hppne
      simp [if_pos hppne]
    · intro hpsne
      exact ⟨(if conv.pathPrefix ≠ "" then [conv.pathPrefix] else []) ++ ps.dropLast,
        by simp [if_pos hpsne]⟩
    · by_cases hA : conv.pathPrefix = "" <;> by_cases hB : conv.pathSuffix = "" <;>
        simp [hA, hB] <;> omega
  | true =>
    set mD := conv.filePrefix ++ conv.fileSuffix with hmD
    have hm : conv.meta_for p true = pyJoinPath
        ((if conv.pathPrefix ≠ "" then [conv.pathPrefix] else []) ++ ps.dropLast ++
          [name] ++ (if conv.pathSuffix ≠ "" then [conv.pathSuffix] else []) ++ [mD]) := by
      simp only [MetaConvention.meta_for]
      rw [← hps]
      simp only [hname, hmD]
      simp
    have hmDne : mD ≠ "" := by
      rcases hinv with h | h
      · exact string_append_ne_empty_left _ _ h
      · exact string_append_ne_empty_right _ _ h
    have hmDsl : '/' ∉ mD.data := no_sep_append _ _ h3.1 h4.1
    have hcomp_sl : ∀ c ∈ (if conv.pathPrefix ≠ "" then [conv.pathPrefix] else []) ++
        ps.dropLast ++ [name] ++ (if conv.pathSuffix ≠ "" then [conv.pathSuffix] else []) ++
          [mD], '/' ∉ c.data := by
      intro c hc
      simp only [List.mem_append, List.mem_singleton] at hc
      rcases hc with (((hc | hc) | rfl) | hc) | rfl
      · exact hppL_sl c hc
      · exact hdl_sl c hc
      · exact hnamed
      · exact hpsL_sl c hc
      · exact hmDsl
    have hfilter : ((if conv.pathPrefix ≠ "" then [conv.pathPrefix] else []) ++
        ps.dropLast ++ [name] ++ (if conv.pathSuffix ≠ "" then [conv.pathSuffix] else []) ++
          [mD]).filter (fun c => c ≠ "") =
        (if conv.pathPrefix ≠ "" then [conv.pathPrefix] else []) ++ ps.dropLast ++
          (if name = "" then [] else [name]) ++
          (if conv.pathSuffix ≠ "" then [conv.pathSuffix] else []) ++ [mD] := by
      simp only [List.filter_append, fieldBlock_filter, hdl_filter]
      by_cases hn : name = "" <;> simp [hn, hmDne]
    have hfilterne : ((if conv.pathPrefix ≠ "" then [conv.pathPrefix] else []) ++
        ps.dropLast ++ [name] ++ (if conv.pathSuffix ≠ "" then [conv.pathSuffix] else []) ++
          [mD]).filter (fun c => c ≠ "") ≠ [] := by
      rw [hfilter]
      simp
    have hparts := pyPathParts_pyJoinPath _ hcomp_sl hfilterne
    rw [hfilter] at hparts
    rw [hm]
    refine is_meta_shape conv _
      ((if conv.pathPrefix ≠ "" then [conv.pathPrefix] else []) ++ ps.dropLast ++
        (if name = "" then [] else [name]) ++
        (if conv.pathSuffix ≠ "" then [conv.pathSuffix] else [])) mD hparts ?_ ?_ ?_ ?_ ?_
    · rw [hmD]
      exact pyStartsWith_append _ _
    · rw [hmD]
      exact pyEndsWith_append _ _
    · intro hppne
      by_cases hn : name = "" <;> simp [if_pos hppne, hn]
    · intro hpsne
      exact ⟨(if conv.pathPrefix ≠ "" then [conv.pathPrefix] else []) ++ ps.dropLast ++
        (if name = "" then [] else [name]), by simp [if_pos hpsne]⟩
    · by_cases hA : conv.pathPrefix = "" <;> by_cases hB : conv.pathSuffix = "" <;>
        by_cases hn : name = "" <;> simp [hA, hB, hn] <;> omega

theorem C4_meta_roundtrip_amended_witness :
    (let conv : MetaConvention := {}
     (conv.filePrefix ≠ "" ∨ conv.fileSuffix ≠ "") ∧ FieldOK conv.pathPrefix ∧
       FieldOK conv.pathSuffix ∧ FieldOK conv.filePrefix ∧ FieldOK conv.fileSuffix ∧
       MetaPathOK "foo/bar" ∧ conv.is_meta (conv.meta_for "foo/bar" true) = true) :=
  ⟨by decide, by decide, by decide, by decide, by decide, by decide,
    C4_meta_roundtrip_amended {} "foo/bar" true (by decide) (by decide) (by decide)
      (by decide) (by decide) (by decide)⟩

/-! ## Storage adapters (`adapters.py`)

`RealDir` delegates `is_file`/`is_dir` to the operating system and is not
modelled.  `ZipDir` is a pure function of the archive's member-name set, and
`H5Dir` of the HDF5 group/dataset/attribute tree; both are embedded here. -/

/-- Lexicographic comparison of character lists by code point (the order
Python's `sorted` uses on strings). -/
def charListLe : List Char → List Char → Bool
  | [], _ => true
  | _ :: _, [] => false
  | a :: as, b :: bs =>
    if a.val < b.val then true else if b.val < a.val then false else charListLe as bs

/-- String comparison for the model of Python `sorted`. -/
def strLeB (a b : String) : Bool := charListLe a.data b.data

/-- Insertion into a sorted list. -/
def insortStr (x : String) : List String → List String
  | [] => [x]
  | y :: ys => if strLeB x y then x :: y :: ys else y :: insortStr x ys

/-- Model of Python `sorted` on a list of strings (insertion sort). -/
def sortStrings : List String → List String
  | [] => []
  | x :: xs => insortStr x (sortStrings xs)

theorem mem_insortStr (x y : String) (l : List String) :
    y ∈ insortStr x l ↔ y = x ∨ y ∈ l := by
  induction l with
  | nil => simp [insortStr]
  | cons z zs ih =>
    simp only [insortStr]
    split
    · simp
    · simp only [List.mem_cons, ih]
      tauto

theorem mem_sortStrings (y : String) (l : List String) :
    y ∈ sortStrings l ↔ y ∈ l := by
  induction l with
  | nil => simp [sortStrings]
  | cons x xs ih => simp [sortStrings, mem_insortStr, ih]

/-- `ZipDir` from `adapters.py`: holds the set of member names of the open
archive, with `"/"` added to represent the root. -/
structure ZipDir where
  names : List String
deriving DecidableEq, Repr

/-- The `ZipDir` constructor: `names = set(namelist); names.add("/")`. -/
def ZipDir.ofNamelist (nl : List String) : ZipDir :=
  ⟨if "/" ∈ nl then nl else nl ++ ["/"]⟩

/-- `ZipDir.get_paths`: member names sorted, with trailing slashes stripped. -/
def ZipDir.get_paths (zd : ZipDir) : List String :=
  (sortStrings zd.names.dedup).map pyRstripSlash

/-- `ZipDir.is_dir`: `dir.rstrip("/") + "/" in self.names`. -/
def ZipDir.is_dir (zd : ZipDir) (dir : String) : Bool :=
  decide ((pyRstripSlash dir ++ "/") ∈ zd.names)

/-- `ZipDir.is_file`: `dir.rstrip("/") in self.names`. -/
def ZipDir.is_file (zd : ZipDir) (dir : String) : Bool :=
  decide (pyRstripSlash dir ∈ zd.names)

/-- Kind of an HDF5 node: group or dataset. -/
inductive H5NodeKind where
  | group
  | dset
deriving DecidableEq, Repr

/-- Model of the content of an open HDF5 file: the group/dataset nodes in
`visit` order with their kinds, the attribute names of the root, and the
attribute names of every node. -/
structure H5Model where
  nodes : List (String × H5NodeKind)
  rootAttrs : List String
  nodeAttrs : String → List String

/-- Membership test `p in self.file` (the root `"/"` always exists). -/
def H5Model.mem (m : H5Model) (p : String) : Bool :=
  decide (p = "/" ∨ p ∈ m.nodes.map Prod.fst)

/-- The kind of the node at `p` (`isinstance(self.file[p], h5py.Group)`
versus `h5py.Dataset`). -/
def H5Model.kindOf (m : H5Model) (p : String) : Option H5NodeKind :=
  (m.nodes.find? (fun nk => nk.1 == p)).map Prod.snd

/-- `self.file[p].attrs` with `p[0] or "/"` mapping the root. -/
def H5Model.attrsOf (m : H5Model) (p : String) : List String :=
  if p = "/" then m.rootAttrs else m.nodeAttrs p

/-- The `collect` closure of `H5Dir.get_paths`: visit each node, raise if the
name contains the attribute separator `@`, and append the node and its
attribute paths. -/
def H5Dir.collect (m : H5Model) : List (String × H5NodeKind) → Except String (List String)
  | [] => .ok []
  | (n, _k) :: rest =>
    if '@' ∈ n.data then .error "Invalid name, must not contain @!"
    else
      match H5Dir.collect m rest with
      | .error e => .error e
      | .ok r => .ok (n :: ((m.nodeAttrs n).map (fun a => n ++ "@" ++ a) ++ r))

/-- `H5Dir.get_paths`: the root, the root attributes as `@attr`, then per
visited node the node path and its `node@attr` paths; raises (models
`ValueError`) when a visited node name contains `@`. -/
def H5Dir.get_paths (m : H5Model) : Except String (List String) :=
  match H5Dir.collect m m.nodes with
  | .error e => .error e
  | .ok r => .ok ("" :: (m.rootAttrs.map (fun a => "@" ++ a) ++ r))

/-- `H5Dir.is_dir` from `adapters.py`. -/
def H5Dir.is_dir (m : H5Model) (path : String) : Bool :=
  if path = "" then true
  else if '@' ∈ path.data ∨ H5Model.mem m path = false then false
  else
    match m.kindOf path with
    | some .group => true
    | _ => false

/-- `H5Dir.is_file` from `adapters.py`: an attribute path `node@attr` exists
iff the node exists and carries the attribute; otherwise the path must be a
dataset. -/
def H5Dir.is_file (m : H5Model) (path : String) : Bool :=
  if '@' ∈ path.data then
    let ps := splitOnChar '@' path.data
    let p0 : String := if ps.headD [] = [] then "/" else ⟨ps.headD []⟩
    let p1 : String := ⟨ps.getD 1 []⟩
    H5Model.mem m p0 && decide (p1 ∈ m.attrsOf p0)
  else
    H5Model.mem m path &&
      (match m.kindOf path with
       | some .dset => true
       | _ => false)

/-- C5 fails as stated for `ZipDir`: an archive may contain a member both
with and without a trailing slash, making the same reported path both a file
and a directory. -/
theorem C5_counterexample :
    (let zd := ZipDir.ofNamelist ["a", "a/"]
     "a" ∈ zd.get_paths ∧ zd.is_file "a" = true ∧ zd.is_dir "a" = true) := by
  decide

/-- C6 fails as stated: only names of groups and datasets are checked for
`@` during enumeration; attribute names are not, so a root attribute named
`a@b` is enumerated as the ambiguous path `@a@b` instead of raising. -/
theorem C6_counterexample :
    (let m : H5Model := { nodes := [], rootAttrs := ["a@b"], nodeAttrs := fun _ => [] }
     H5Dir.get_paths m = .ok ["", "@a@b"] ∧
       H5Dir.is_file m "@a@b" = false ∧ H5Dir.is_dir m "@a@b" = false) := by
  exact ⟨rfl, by decide, by decide⟩

/-- Whether an embedded operation completed without raising. -/
def exceptIsOk {ε α : Type} : Except ε α → Bool
  | .ok _ => true
  | .error _ => false

theorem collect_isOk_iff (m : H5Model) (l : List (String × H5NodeKind)) :
    exceptIsOk (H5Dir.collect m l) = true ↔ ∀ nk ∈ l, '@' ∉ nk.1.data := by
  induction l with
  | nil => simp [H5Dir.collect, exceptIsOk]
  | cons nk rest ih =>
    obtain ⟨n, k⟩ := nk
    by_cases hn : '@' ∈ n.data
    · simp [H5Dir.collect, hn, exceptIsOk]
    · rcases hrest : H5Dir.collect m rest with e | r
      · rw [hrest] at ih
        simp only [H5Dir.collect, if_neg hn, hrest]
        simp only [exceptIsOk] at ih ⊢
        simp only [List.mem_cons]
        constructor
        · intro h
          exact absurd h (by simp)
        · intro h
          exact absurd (ih.mpr (fun x hx => h x (Or.inr hx))) (by simp)
      · have ihr : ∀ nk ∈ rest, '@' ∉ nk.1.data := by
          rw [hrest] at ih
          exact ih.mp rfl
        simp only [H5Dir.collect, if_neg hn, hrest]
        refine iff_of_true rfl ?_
        intro x hx
        rcases List.mem_cons.mp hx with rfl | hx2
        · exact hn
        · exact ihr x hx2

theorem collect_mem (m : H5Model) (l : List (String × H5NodeKind))
    (r : List String) (h : H5Dir.collect m l = .ok r) :
    ∀ nk ∈ l, nk.1 ∈ r ∧ ∀ a ∈ m.nodeAttrs nk.1, (nk.1 ++ "@" ++ a) ∈ r := by
  induction l generalizing r with
  | nil => simp
  | cons nk0 rest ih =>
    obtain ⟨n, k⟩ := nk0
    by_cases hn : '@' ∈ n.data
    · simp [H5Dir.collect, hn] at h
    · rcases hrest : H5Dir.collect m rest with e | r2
      · rw [H5Dir.collect, if_neg hn, hrest] at h
        exact absurd h (by simp)
      · rw [H5Dir.collect, if_neg hn, hrest] at h
        simp only [Except.ok.injEq] at h
        subst h
        intro nk hnk
        rcases List.mem_cons.mp hnk with rfl | hnk2
        · refine ⟨by simp, ?_⟩
          intro a ha
          simp only [List.mem_cons, List.mem_append, List.mem_map]
          exact Or.inr (Or.inl ⟨a, ha, rfl⟩)
        · have := ih r2 hrest nk hnk2
          refine ⟨by simp [this.1], ?_⟩
          intro a ha
          simp only [List.mem_cons, List.mem_append]
          exact Or.inr (Or.inr ((this.2 a ha)))

theorem collect_mem_inv (m : H5Model) (l : List (String × H5NodeKind))
    (r : List String) (h : H5Dir.collect m l = .ok r) :
    ∀ x ∈ r, (∃ nk ∈ l, x = nk.1) ∨
      (∃ nk ∈ l, ∃ a ∈ m.nodeAttrs nk.1, x = nk.1 ++ "@" ++ a) := by
  induction l generalizing r with
  | nil =>
    simp only [H5Dir.collect, Except.ok.injEq] at h
    subst h
    simp
  | cons nk0 rest ih =>
    obtain ⟨n, k⟩ := nk0
    by_cases hn : '@' ∈ n.data
    · simp [H5Dir.collect, hn] at h
    · rcases hrest : H5Dir.collect m rest with e | r2
      · rw [H5Dir.collect, if_neg hn, hrest] at h
        exact absurd h (by simp)
      · rw [H5Dir.collect, if_neg hn, hrest] at h
        simp only [Except.ok.injEq] at h
        subst h
        intro x hx
        rcases List.mem_cons.mp hx with rfl | hx2
        · exact Or.inl ⟨(x, k), by simp⟩
        · rcases List.mem_append.mp hx2 with hx3 | hx3
          · obtain ⟨a, ha, rfl⟩ := List.mem_map.mp hx3
            exact Or.inr ⟨(n, k), by simp, a, ha, rfl⟩
          · rcases ih r2 hrest x hx3 with ⟨nk, hnk, hxeq⟩ | ⟨nk, hnk, a, ha, hxeq⟩
            · exact Or.inl ⟨nk, by simp [hnk], hxeq⟩
            · exact Or.inr ⟨nk, by simp [hnk], a, ha, hxeq⟩

/-- Amended C6: `H5Dir.get_paths` raises exactly when some *group or dataset*
name contains `@` (attribute names are not checked); on success it enumerates
the root `""`, one `@attr` path per root attribute, every visited node path,
and one `node@attr` path per node attribute. -/
theorem C6_h5_enumeration_amended (m : H5Model) :
    (exceptIsOk (H5Dir.get_paths m) = true ↔ ∀ nk ∈ m.nodes, '@' ∉ nk.1.data) ∧
    (∀ ps, H5Dir.get_paths m = .ok ps →
      "" ∈ ps ∧ (∀ a ∈ m.rootAttrs, ("@" ++ a) ∈ ps) ∧
      (∀ nk ∈ m.nodes, nk.1 ∈ ps ∧ ∀ a ∈ m.nodeAttrs nk.1, (nk.1 ++ "@" ++ a) ∈ ps)) := by
  constructor
  · rw [← collect_isOk_iff m m.nodes]
    unfold H5Dir.get_paths
    rcases H5Dir.collect m m.nodes with e | r <;> simp [exceptIsOk]
  · intro ps hps
    unfold H5Dir.get_paths at hps
    rcases hcol : H5Dir.collect m m.nodes with e | r
    · rw [hcol] at hps
      exact absurd hps (by simp)
    · rw [hcol] at hps
      simp only [Except.ok.injEq] at hps
      subst hps
      refine ⟨by simp, ?_, ?_⟩
      · intro a ha
        simp only [List.mem_cons, List.mem_append, List.mem_map]
        exact Or.inr (Or.inl ⟨a, ha, rfl⟩)
      · intro nk hnk
        have := collect_mem m m.nodes r hcol nk hnk
        refine ⟨by simp [this.1], ?_⟩
        intro a ha
        simp only [List.mem_cons, List.mem_append]
        exact Or.inr (Or.inr (this.2 a ha))

theorem C6_h5_enumeration_amended_witness :
    (let m : H5Model := ⟨[("g", H5NodeKind.group)], ["r"], fun _n => ["x"]⟩
     ("" : String) ∈ ["", "@r", "g", "g@x"] ∧ ("@r" : String) ∈ ["", "@r", "g", "g@x"] ∧
       ("g" : String) ∈ ["", "@r", "g", "g@x"] ∧ ("g@x" : String) ∈ ["", "@r", "g", "g@x"]) := by
  intro m
  have h := (C6_h5_enumeration_amended m).2 ["", "@r", "g", "g@x"] rfl
  refine ⟨h.1, h.2.1 "r" (by simp), (h.2.2 ("g", H5NodeKind.group) (by simp)).1, ?_⟩
  have := (h.2.2 ("g", H5NodeKind.group) (by simp)).2 "x" (by simp)
  simpa using this

/-! ### Amended C5: file/dir classification of enumerated paths -/

theorem dropWhile_idem {α : Type} (p : α → Bool) (l : List α) :
    (l.dropWhile p).dropWhile p = l.dropWhile p := by
  induction l with
  | nil => rfl
  | cons c cs ih =>
    by_cases h : p c
    · simp [List.dropWhile_cons, h, ih]
    · simp [List.dropWhile_cons, h]

theorem pyRstripSlash_idem (s : String) :
    pyRstripSlash (pyRstripSlash s) = pyRstripSlash s := by
  unfold pyRstripSlash
  apply congrArg String.mk
  apply congrArg List.reverse
  rw [show ((⟨(s.data.reverse.dropWhile (fun c => c = '/')).reverse⟩ : String).data) =
    (s.data.reverse.dropWhile (fun c => c = '/')).reverse from rfl]
  rw [List.reverse_reverse, dropWhile_idem]

theorem append_slash_eq_slash_iff (p : String) : p ++ "/" = "/" ↔ p = "" := by
  constructor
  · intro h
    have hd := congrArg String.data h
    rw [String.data_append] at hd
    have : p.data = [] := by
      have hlen := congrArg List.length hd
      simp at hlen
      exact List.eq_nil_of_length_eq_zero hlen
    exact String.ext this
  · rintro rfl
    rfl

/-- Well-formed zip member names: every member is non-empty after stripping
trailing slashes, carries at most one trailing slash, and no entry is listed
both as a file and as a directory. -/
def ZipNamesWF (nl : List String) : Prop :=
  ∀ n ∈ nl, pyRstripSlash n ≠ "" ∧
    (n = pyRstripSlash n ∨ n = pyRstripSlash n ++ "/") ∧
    ¬(pyRstripSlash n ∈ nl ∧ (pyRstripSlash n ++ "/") ∈ nl)

/-- Well-formed HDF5 content: node names are non-empty, not the root, and
`@`-free; attribute names are `@`-free; node names are unique. -/
def H5WF (m : H5Model) : Prop :=
  (∀ nk ∈ m.nodes, nk.1 ≠ "" ∧ nk.1 ≠ "/" ∧ '@' ∉ nk.1.data) ∧
  (∀ a ∈ m.rootAttrs, '@' ∉ a.data) ∧
  (∀ nk ∈ m.nodes, ∀ a ∈ m.nodeAttrs nk.1, '@' ∉ a.data) ∧
  (m.nodes.map Prod.fst).Nodup

instance (nl : List String) : Decidable (ZipNamesWF nl) := by
  unfold ZipNamesWF
  infer_instance

instance (m : H5Model) : Decidable (H5WF m) := by
  unfold H5WF
  infer_instance

theorem find?_eq_of_nodup (nodes : List (String × H5NodeKind)) (n : String)
    (k : H5NodeKind) (hnodup : (nodes.map Prod.fst).Nodup) (hmem : (n, k) ∈ nodes) :
    nodes.find? (fun nk => nk.1 == n) = some (n, k) := by
  induction nodes with
  | nil => simp at hmem
  | cons x xs ih =>
    rcases List.mem_cons.mp hmem with rfl | hmem2
    · have hbeq : (((n, k) : String × H5NodeKind).1 == n) = true := by simp
      unfold List.find?
      rw [hbeq]
    · have hx : x.1 ≠ n := by
        intro he
        have hn : n ∈ xs.map Prod.fst := List.mem_map.mpr ⟨(n, k), hmem2, rfl⟩
        rw [List.map_cons] at hnodup
        exact (List.nodup_cons.mp hnodup).1 (he ▸ hn)
      have hbeq : (x.1 == n) = false := by simp [hx]
      unfold List.find?
      rw [hbeq]
      exact ih (by rw [List.map_cons] at hnodup; exact (List.nodup_cons.mp hnodup).2) hmem2

theorem h5_split_pair (u v : List Char) (hu : '@' ∉ u) (hv : '@' ∉ v) :
    splitOnChar '@' (u ++ '@' :: v) = [u, v] := by
  have hj : joinChar '@' [u, v] = u ++ '@' :: v := rfl
  have := splitOnChar_joinChar '@' [u, v] (by simp) (by
    intro x hx
    rcases List.mem_cons.mp hx with rfl | hx2
    · exact hu
    · rcases List.mem_cons.mp hx2 with rfl | hx3
      · exact hv
      · simp at hx3)
  rw [hj] at this
  exact this

theorem string_ne_empty_of_data_ne (s : String) (h : s.data ≠ []) : s ≠ "" :=
  fun he => h (congrArg String.data he)

/-- Amended C5: for `ZipDir` over a well-formed member set and `H5Dir` over
well-formed HDF5 content, every enumerated path is exactly one of
file/directory, and the root `""` is a directory.  (`RealDir` delegates the
classification to the operating system and is not modelled.) -/
theorem C5_adapter_classification_amended :
    (∀ (nl : List String), ZipNamesWF nl →
      ∀ p ∈ (ZipDir.ofNamelist nl).get_paths,
        ((ZipDir.ofNamelist nl).is_file p ≠ (ZipDir.ofNamelist nl).is_dir p) ∧
          (p = "" → (ZipDir.ofNamelist nl).is_dir p = true)) ∧
    (∀ (m : H5Model), H5WF m → ∀ ps, H5Dir.get_paths m = .ok ps → ∀ p ∈ ps,
      (H5Dir.is_file m p ≠ H5Dir.is_dir m p) ∧ (p = "" → H5Dir.is_dir m p = true)) := by
  constructor
  · -- ZipDir
    intro nl hwf p hp
    have hslash_nl : "/" ∉ nl := by
      intro h
      exact (hwf "/" h).1 (by decide)
    have hnames : (ZipDir.ofNamelist nl).names = nl ++ ["/"] := by
      simp [ZipDir.ofNamelist, hslash_nl]
    have hmemnames : ∀ x : String, x ∈ (ZipDir.ofNamelist nl).names ↔ x ∈ nl ∨ x = "/" := by
      intro x
      rw [hnames]
      simp
    obtain ⟨n, hn, rfl⟩ : ∃ n ∈ (ZipDir.ofNamelist nl).names, pyRstripSlash n = p := by
      unfold ZipDir.get_paths at hp
      obtain ⟨n, hn, hrw⟩ := List.mem_map.mp hp
      exact ⟨n, by
        have := (mem_sortStrings n _).mp hn
        exact List.mem_dedup.mp this, hrw⟩
    rcases (hmemnames n).mp hn with hn_nl | rfl
    · -- a real member
      have hwfn := hwf n hn_nl
      have hpne : pyRstripSlash n ≠ "" := hwfn.1
      have hidem : pyRstripSlash (pyRstripSlash n) = pyRstripSlash n := pyRstripSlash_idem n
      have hpslash : pyRstripSlash n ≠ "/" := by
        intro h
        apply hpne
        rw [← hidem, h]
        decide
      have hfile_iff : (ZipDir.ofNamelist nl).is_file (pyRstripSlash n) = true ↔
          pyRstripSlash n ∈ nl := by
        unfold ZipDir.is_file
        rw [hidem]
        simp only [decide_eq_true_eq, hmemnames]
        constructor
        · rintro (h | h)
          · exact h
          · exact absurd h hpslash
        · exact Or.inl
      have hdir_iff : (ZipDir.ofNamelist nl).is_dir (pyRstripSlash n) = true ↔
          (pyRstripSlash n ++ "/") ∈ nl := by
        unfold ZipDir.is_dir
        rw [hidem]
        simp only [decide_eq_true_eq, hmemnames]
        constructor
        · rintro (h | h)
          · exact h
          · exact absurd ((append_slash_eq_slash_iff _).mp h) hpne
        · exact Or.inl
      have hnotboth := hwfn.2.2
      refine ⟨?_, fun h => absurd h hpne⟩
      rcases hwfn.2.1 with heq | heq
      · have hf : (ZipDir.ofNamelist nl).is_file (pyRstripSlash n) = true :=
          hfile_iff.mpr (heq ▸ hn_nl)
        have hd : (ZipDir.ofNamelist nl).is_dir (pyRstripSlash n) = false := by
          rcases hdd : (ZipDir.ofNamelist nl).is_dir (pyRstripSlash n) with _ | _
          · rfl
          · exact absurd ⟨heq ▸ hn_nl, hdir_iff.mp hdd⟩ hnotboth
        rw [hf, hd]
        simp
      · have hd : (ZipDir.ofNamelist nl).is_dir (pyRstripSlash n) = true :=
          hdir_iff.mpr (heq ▸ hn_nl)
        have hf : (ZipDir.ofNamelist nl).is_file (pyRstripSlash n) = false := by
          rcases hff : (ZipDir.ofNamelist nl).is_file (pyRstripSlash n) with _ | _
          · rfl
          · exact absurd ⟨hfile_iff.mp hff, heq ▸ hn_nl⟩ hnotboth
        rw [hf, hd]
        simp
    · -- the added root entry "/"
      have hroot : pyRstripSlash "/" = "" := by decide
      rw [hroot]
      have hdir : (ZipDir.ofNamelist nl).is_dir "" = true := by
        unfold ZipDir.is_dir
        simp only [decide_eq_true_eq, hmemnames]
        right
        decide
      have hfile : (ZipDir.ofNamelist nl).is_file "" = false := by
        unfold ZipDir.is_file
        simp only [decide_eq_false_iff_not, hmemnames]
        rintro (h | h)
        · exact (hwf "" h).1 (by decide)
        · exact absurd h (by decide)
      rw [hdir, hfile]
      exact ⟨by simp, fun _ => rfl⟩
  · -- H5Dir
    intro m hwf ps hps p hp
    obtain ⟨hwf_nodes, hwf_root, hwf_attrs, hwf_nodup⟩ := hwf
    unfold H5Dir.get_paths at hps
    rcases hcol : H5Dir.collect m m.nodes with e | r
    · rw [hcol] at hps
      exact absurd hps (by simp)
    rw [hcol] at hps
    simp only [Except.ok.injEq] at hps
    subst hps
    have hmem_root : H5Model.mem m "/" = true := by
      unfold H5Model.mem
      simp
    rcases List.mem_cons.mp hp with rfl | hp2
    · -- the root path ""
      have hdir : H5Dir.is_dir m "" = true := by
        unfold H5Dir.is_dir
        simp
      have hfile : H5Dir.is_file m "" = false := by
        unfold H5Dir.is_file
        rw [if_neg (by simp)]
        have hmem0 : H5Model.mem m "" = false := by
          unfold H5Model.mem
          simp only [decide_eq_false_iff_not]
          rintro (h | h)
          · exact absurd h (by decide)
          · obtain ⟨nk, hnk, hfst⟩ := List.mem_map.mp h
            exact (hwf_nodes nk hnk).1 hfst
        rw [hmem0]
        rfl
      rw [hdir, hfile]
      exact ⟨by simp, fun _ => rfl⟩
    rcases List.mem_append.mp hp2 with hpr | hpr
    · -- a root attribute path "@a"
      obtain ⟨a, ha, rfl⟩ := List.mem_map.mp hpr
      have hdata : ("@" ++ a).data = [] ++ '@' :: a.data := by
        rw [String.data_append]
        rfl
      have hat : '@' ∈ ("@" ++ a).data := by
        rw [hdata]
        simp
      have hdir : H5Dir.is_dir m ("@" ++ a) = false := by
        unfold H5Dir.is_dir
        rw [if_neg (string_ne_empty_of_data_ne _ (by rw [hdata]; simp)), if_pos (Or.inl hat)]
      have hfile : H5Dir.is_file m ("@" ++ a) = true := by
        unfold H5Dir.is_file
        rw [if_pos hat]
        simp only []
        rw [hdata, h5_split_pair [] a.data (by simp) (hwf_root a ha)]
        have he : (⟨a.data⟩ : String) = a := rfl
        simp [List.getD, hmem_root, H5Model.attrsOf, he, ha]
      rw [hdir, hfile]
      exact ⟨by simp, fun h => absurd h (string_ne_empty_of_data_ne _ (by rw [hdata]; simp))⟩
    · -- node and node-attribute paths
      rcases collect_mem_inv m m.nodes r hcol p hpr with ⟨⟨n, k⟩, hnk, heq⟩ |
        ⟨⟨n, k⟩, hnk, a, ha, heq⟩
      · -- a node path
        rw [heq]
        dsimp only
        have hw := hwf_nodes (n, k) hnk
        have hmemn : H5Model.mem m n = true := by
          unfold H5Model.mem
          simp only [decide_eq_true_eq]
          exact Or.inr (List.mem_map.mpr ⟨(n, k), hnk, rfl⟩)
        have hkind : m.kindOf n = some k := by
          unfold H5Model.kindOf
          rw [find?_eq_of_nodup m.nodes n k hwf_nodup hnk]
          rfl
        cases k with
        | group =>
          have hdir : H5Dir.is_dir m n = true := by
            unfold H5Dir.is_dir
            rw [if_neg hw.1, if_neg (by simp [hw.2.2, hmemn]), hkind]
          have hfile : H5Dir.is_file m n = false := by
            unfold H5Dir.is_file
            rw [if_neg hw.2.2, hkind, hmemn]
            rfl
          rw [hdir, hfile]
          exact ⟨by simp, fun _ => rfl⟩
        | dset =>
          have hdir : H5Dir.is_dir m n = false := by
            unfold H5Dir.is_dir
            rw [if_neg hw.1, if_neg (by simp [hw.2.2, hmemn]), hkind]
          have hfile : H5Dir.is_file m n = true := by
            unfold H5Dir.is_file
            rw [if_neg hw.2.2, hkind, hmemn]
            rfl
          rw [hdir, hfile]
          exact ⟨by simp, fun h => absurd h hw.1⟩
      · -- a node attribute path "n@a"
        subst heq
        have hw := hwf_nodes (n, k) hnk
        have hdata : (n ++ "@" ++ a).data = n.data ++ '@' :: a.data := by
          rw [String.data_append, String.data_append]
          simp
        have hat : '@' ∈ (n ++ "@" ++ a).data := by
          rw [hdata]
          simp
        have hne0 : (n ++ "@" ++ a) ≠ "" := by
          apply string_ne_empty_of_data_ne
          rw [hdata]
          simp
        have hdir : H5Dir.is_dir m (n ++ "@" ++ a) = false := by
          unfold H5Dir.is_dir
          rw [if_neg hne0, if_pos (Or.inl hat)]
        have hfile : H5Dir.is_file m (n ++ "@" ++ a) = true := by
          unfold H5Dir.is_file
          rw [if_pos hat]
          simp only []
          rw [hdata, h5_split_pair n.data a.data hw.2.2 (hwf_attrs (n, k) hnk a ha)]
          have hnd : n.data ≠ [] := fun h => hw.1 (String.ext h)
          have he1 : (⟨n.data⟩ : String) = n := rfl
          have he2 : (⟨a.data⟩ : String) = a := rfl
          have hmemn : H5Model.mem m n = true := by
            unfold H5Model.mem
            simp only [decide_eq_true_eq]
            exact Or.inr (List.mem_map.mpr ⟨(n, k), hnk, rfl⟩)
          simp [List.getD, hnd, he1, he2, hmemn, H5Model.attrsOf, hw.2.1, ha]
        rw [hdir, hfile]
        exact ⟨by simp, fun h => absurd h hne0⟩

theorem C5_adapter_classification_amended_witness :
    ((ZipDir.ofNamelist ["d/", "d/f"]).is_file "d" ≠
        (ZipDir.ofNamelist ["d/", "d/f"]).is_dir "d") ∧
      ((H5Dir.is_file (⟨[("g", H5NodeKind.group)], ["r"], fun _n => []⟩ : H5Model) "@r" ≠
        H5Dir.is_dir (⟨[("g", H5NodeKind.group)], ["r"], fun _n => []⟩ : H5Model) "@r")) := by
  constructor
  · exact ((C5_adapter_classification_amended.1 ["d/", "d/f"] (by decide) "d"
      (by decide))).1
  · exact ((C5_adapter_classification_amended.2
      (⟨[("g", H5NodeKind.group)], ["r"], fun _n => []⟩ : H5Model)
      ⟨by decide, by decide, by decide, by decide⟩
      ["", "@r", "g"] rfl "@r" (by decide))).1

/-! ## Rule tree (`core.py`) and evaluator (`validate.py`)

The JSON-Schema engine, remote-schema loading and plugin dispatch are external
dependencies of the evaluator; they are modelled by the opaque environment
`JsonEnv` below (an opaque resolver plus an opaque validation function), with
byte streams and decoded JSON values represented by opaque string tokens.  The
evaluator itself only branches on whether these operations succeed and on
whether the resolved validator is a raw-data handler, which the model captures
exactly. -/

/-- `TypeEnum` from `core.py`. -/
inductive TypeEnum where
  | missing
  | file
  | dir
  | any
deriving DecidableEq, Repr

/-- `TypeEnum.is_satisfied` from `core.py`. -/
def TypeEnum.is_satisfied : TypeEnum → Bool → Bool → Bool
  | .missing, f, d => !(f || d)
  | .any, f, d => f || d
  | .dir, _, d => d
  | .file, f, _ => f

/-- The rendering of `rl.type.value` inside f-strings (`"file"`, `"dir"`;
the boolean values render as Python `str(bool)`, though those branches are
overridden by dedicated messages). -/
def TypeEnum.valueStr : TypeEnum → String
  | .missing => "False"
  | .file => "file"
  | .dir => "dir"
  | .any => "True"

/-- One step of a rule location (`Union[str, int]` in `validate.py`). -/
inductive LocStep where
  | key (s : String)
  | idx (n : Nat)
deriving DecidableEq, Repr

/-- JSON validation errors (`Dict[str, List[str]]` from `json/validate.py`),
as an insertion-ordered association list. -/
abbrev JVErrs : Type := List (String × List String)

/-- An error payload: a message string or refined JSON validation errors. -/
inductive ErrVal where
  | msg (s : String)
  | jsonErrs (e : List (String × List String))
deriving DecidableEq, Repr

/-- `DSValidationError` from `validate.py`. -/
structure DSValidationError where
  path : String
  err : ErrVal
deriving DecidableEq, Repr

/-- `DSValidationErrors`: a Python dict keyed by location tuples, modelled as
an insertion-ordered association list with last-writer-wins update. -/
abbrev DSValidationErrors : Type := List (List LocStep × DSValidationError)

/-- Python dict assignment `d[k] = v`: replace in place if the key exists
(keeping its position), else append. -/
def updateAssoc {κ ν : Type} [DecidableEq κ] (l : List (κ × ν)) (k : κ) (v : ν) :
    List (κ × ν) :=
  if k ∈ l.map Prod.fst then
    l.map (fun kv => if kv.1 = k then (k, v) else kv)
  else l ++ [(k, v)]

/-- Python `dict.update`. -/
def updateAll {κ ν : Type} [DecidableEq κ] (l upd : List (κ × ν)) : List (κ × ν) :=
  upd.foldl (fun acc kv => updateAssoc acc kv.1 kv.2) l

/-- The rule fields of `Rule` from `core.py` (all optional), parameterized by
the sub-rule type.  `valid`/`validMeta` references (embedded schemas or
strings) are opaque tokens resolved by the `JsonEnv`. -/
structure RuleF (R : Type) where
  type : Option TypeEnum := none
  valid : Option String := none
  validMeta : Option String := none
  allOf : List R := []
  anyOf : List R := []
  oneOf : List R := []
  not_ : Option R := none
  if_ : Option R := none
  then_ : Option R := none
  else_ : Option R := none
  match_ : Option RePattern := none
  matchStart : Option Int := none
  matchStop : Option Int := none
  rewrite : Option String := none
  next : Option R := none
  description : Option String := none
  details : Bool := true

/-- `DSRule` from `core.py`: a boolean or a rule object. -/
inductive DSRule where
  | bool (b : Bool)
  | node (r : RuleF DSRule)

/-- `IDirectory` as used by the evaluator: path enumeration, classification,
file opening (opaque byte tokens) and JSON decoding (opaque value tokens). -/
structure IDirectory where
  get_paths : List String
  is_dir : String → Bool
  is_file : String → Bool
  open_file : String → Option String
  decode_json : String → String → Option String

/-- The result of `resolve_validator` (`json/validate.py`): an embedded or
loaded JSON Schema, or a custom `ValidationHandler` with its `_for_json`
flag. -/
inductive SchemaOrPlugin where
  | schema (id : String)
  | handler (forJson : Bool) (id : String)

/-- Opaque model of the external JSON-Schema/plugin machinery:
`resolve_validator` and `validate_metadata`. -/
structure JsonEnv where
  resolve : String → SchemaOrPlugin
  validate_metadata : SchemaOrPlugin → (String ⊕ String) → List (String × List String)

/-- `DSEvalCtx` from `validate.py`. -/
structure DSEvalCtx where
  dirAdapter : IDirectory
  metaConvention : MetaConvention := {}
  errors : DSValidationErrors := []
  failed : Bool := false
  filePath : String := ""
  location : List LocStep := []
  matchStart : Int := 0
  matchStop : Int := 0
  matchPat : Option RePattern := none

/-- `DSEvalCtx.descend` from `validate.py`: copy the context, clear the
errors, override the match configuration from the child rule, set the file
path and extend the location.

Note the faithful transcription of line 127 of `validate.py`: a truthy child
`matchStop` is assigned to the **`matchStart`** field of the new context. -/
def DSEvalCtx.descend (ctx : DSEvalCtx) (rule : DSRule)
    (filepath : Option String := none) (reachedVia : Option LocStep := none) :
    DSEvalCtx :=
  let ret0 := { ctx with errors := [] }
  let ret1 :=
    match rule with
    | .bool _ => ret0
    | .node rl =>
      let r1 :=
        match rl.matchStart with
        | some i => if i ≠ 0 then { ret0 with matchStart := i } else ret0
        | none => ret0
      let r2 :=
        match rl.matchStop with
        | some i => if i ≠ 0 then { r1 with matchStart := i } else r1
        | none => r1
      match rl.match_ with
      | some pat => { r2 with matchPat := some pat }
      | none => r2
  let ret2 :=
    match filepath with
    | some fp => { ret1 with filePath := fp }
    | none => ret1
  match reachedVia with
  | some rv => { ret2 with location := ret2.location ++ [rv] }
  | none => ret2

/-- `DSEvalCtx.add_error`: record an error at the current location (extended
with `child` when given), for the passed path if given and truthy, else the
current file path. -/
def DSEvalCtx.add_error (ctx : DSEvalCtx) (err : ErrVal)
    (child : Option LocStep := none) (path : Option String := none) : DSEvalCtx :=
  let loc := match child with | some c => ctx.location ++ [c] | none => ctx.location
  let fp := match path with
    | some p0 => if p0 = "" then ctx.filePath else p0
    | none => ctx.filePath
  { ctx with errors := updateAssoc ctx.errors loc ⟨fp, err⟩ }

/-- `DSEvalCtx.add_errors`: merge the passed error dicts. -/
def DSEvalCtx.add_errors (ctx : DSEvalCtx) (errDicts : List DSValidationErrors) :
    DSEvalCtx :=
  { ctx with errors := errDicts.foldl (fun acc d => updateAll acc d) ctx.errors }

/-- `DSEvalCtx.fresh`: initialize a context from the given fields, then
`descend` into the root rule to load its match configuration. -/
def DSEvalCtx.fresh (rule : DSRule) (dirAdapter : IDirectory)
    (metaConvention : MetaConvention) (filePath : String) : DSEvalCtx :=
  DSEvalCtx.descend
    { dirAdapter := dirAdapter, metaConvention := metaConvention, filePath := filePath }
    rule

/-- The `add_error` closure defined inside `validate_path` (stage 2 onward):
with no `description` add the passed error; with a non-empty `description`
and a not-yet-failed context add the group-expanded description instead (a
failing inherited match would raise `AttributeError` in Python; modelled as
the unexpanded text); always mark the context failed. -/
def ruleAddError (desc : Option String) (psl : PathSlice) (ctx : DSEvalCtx)
    (err : ErrVal) (child : Option LocStep) (path : Option String) : DSEvalCtx :=
  let ctx2 :=
    match desc with
    | none => ctx.add_error err child path
    | some d =>
      if d ≠ "" ∧ ctx.failed = false then
        match psl.matchOn ctx.matchPat with
        | some m => ctx.add_error (.msg (m.expand d)) none none
        | none => ctx.add_error (.msg d) none none
      else ctx
  { ctx2 with failed := true }

/-- `DSValidator` from `validate.py` (the schema, metadata convention, and
the external JSON machinery; `local_basedir`/`relative_prefix` are absorbed
into the opaque resolver). -/
structure DSValidator where
  schema : DSRule
  meta_conv : MetaConvention := {}
  env : JsonEnv

/-- The `valid`/`validMeta` part of stage 2 of `validate_path`, for one of
the two keys. -/
def validStage (env : JsonEnv) (desc : Option String) (psl : PathSlice)
    (key : String) (vref : Option String) (isValidMeta : Bool) (path : String)
    (is_file is_dir : Bool) (ctx : DSEvalCtx) : DSEvalCtx :=
  match vref with
  | none => ctx
  | some vr =>
    if is_file = false ∧ is_dir = false then
      ruleAddError desc psl ctx
        (.msg ("Path \x27" ++ path ++ "\x27 does not exist")) (some (.key key)) none
    else
      let metapath := if isValidMeta then ctx.metaConvention.meta_for path is_dir else path
      match ctx.dirAdapter.open_file metapath with
      | none =>
        ruleAddError desc psl ctx
          (.msg ("File \x27" ++ metapath ++ "\x27 could not be loaded"))
          (some (.key key)) (some metapath)
      | some dat =>
        let schemaOrPlugin := env.resolve vr
        let parse_json :=
          match schemaOrPlugin with
          | .handler forJson _ => !forJson
          | .schema _ => true
        if parse_json then
          match ctx.dirAdapter.decode_json dat metapath with
          | none =>
            ruleAddError desc psl ctx
              (.msg ("File \x27" ++ metapath ++ "\x27 could not be parsed"))
              (some (.key key)) (some metapath)
          | some j =>
            let valErrs := env.validate_metadata schemaOrPlugin (.inr j)
            if valErrs ≠ [] then
              ruleAddError desc psl ctx (.jsonErrs valErrs) (some (.key key)) (some metapath)
            else ctx
        else
          let valErrs := env.validate_metadata schemaOrPlugin (.inl dat)
          if valErrs ≠ [] then
            ruleAddError desc psl ctx (.jsonErrs valErrs) (some (.key key)) (some metapath)
          else ctx

theorem sizeOf_node (rl : RuleF DSRule) : sizeOf rl < sizeOf (DSRule.node rl) := by
  simp only [DSRule.node.sizeOf_spec]
  omega

theorem sizeOf_field_if (rl : RuleF DSRule) (x : DSRule) (h : rl.if_ = some x) :
    sizeOf x < sizeOf rl := by
  obtain ⟨f1, f2, f3, f4, f5, f6, f7, f8, f9, f10, f11, f12, f13, f14, f15, f16, f17⟩ := rl
  have h2 : f8 = some x := h
  subst h2
  simp only [RuleF.mk.sizeOf_spec, Option.some.sizeOf_spec]
  omega

theorem sizeOf_field_then (rl : RuleF DSRule) (x : DSRule) (h : rl.then_ = some x) :
    sizeOf x < sizeOf rl := by
  obtain ⟨f1, f2, f3, f4, f5, f6, f7, f8, f9, f10, f11, f12, f13, f14, f15, f16, f17⟩ := rl
  have h2 : f9 = some x := h
  subst h2
  simp only [RuleF.mk.sizeOf_spec, Option.some.sizeOf_spec]
  omega

theorem sizeOf_field_else (rl : RuleF DSRule) (x : DSRule) (h : rl.else_ = some x) :
    sizeOf x < sizeOf rl := by
  obtain ⟨f1, f2, f3, f4, f5, f6, f7, f8, f9, f10, f11, f12, f13, f14, f15, f16, f17⟩ := rl
  have h2 : f10 = some x := h
  subst h2
  simp only [RuleF.mk.sizeOf_spec, Option.some.sizeOf_spec]
  omega

theorem sizeOf_field_not (rl : RuleF DSRule) (x : DSRule) (h : rl.not_ = some x) :
    sizeOf x < sizeOf rl := by
  obtain ⟨f1, f2, f3, f4, f5, f6, f7, f8, f9, f10, f11, f12, f13, f14, f15, f16, f17⟩ := rl
  have h2 : f7 = some x := h
  subst h2
  simp only [RuleF.mk.sizeOf_spec, Option.some.sizeOf_spec]
  omega

theorem sizeOf_field_next (rl : RuleF DSRule) (x : DSRule) (h : rl.next = some x) :
    sizeOf x < sizeOf rl := by
  obtain ⟨f1, f2, f3, f4, f5, f6, f7, f8, f9, f10, f11, f12, f13, f14, f15, f16, f17⟩ := rl
  have h2 : f15 = some x := h
  subst h2
  simp only [RuleF.mk.sizeOf_spec, Option.some.sizeOf_spec]
  omega

theorem sizeOf_field_allOf (rl : RuleF DSRule) : sizeOf rl.allOf < sizeOf rl := by
  obtain ⟨f1, f2, f3, f4, f5, f6, f7, f8, f9, f10, f11, f12, f13, f14, f15, f16, f17⟩ := rl
  simp only [RuleF.mk.sizeOf_spec]
  omega

theorem sizeOf_field_anyOf (rl : RuleF DSRule) : sizeOf rl.anyOf < sizeOf rl := by
  obtain ⟨f1, f2, f3, f4, f5, f6, f7, f8, f9, f10, f11, f12, f13, f14, f15, f16, f17⟩ := rl
  simp only [RuleF.mk.sizeOf_spec]
  omega

theorem sizeOf_field_oneOf (rl : RuleF DSRule) : sizeOf rl.oneOf < sizeOf rl := by
  obtain ⟨f1, f2, f3, f4, f5, f6, f7, f8, f9, f10, f11, f12, f13, f14, f15, f16, f17⟩ := rl
  simp only [RuleF.mk.sizeOf_spec]
  omega

set_option maxHeartbeats 1600000
set_option maxRecDepth 8000

/-- The primitive-constraints stage (stage 2) of `validate_path`: `type`,
`valid`, `validMeta`. -/
def stage2 (V : DSValidator) (path : String) (rl : RuleF DSRule)
    (cur0 : DSEvalCtx) (psl : PathSlice) : DSEvalCtx :=
  let is_file := cur0.dirAdapter.is_file path
  let is_dir := cur0.dirAdapter.is_dir path
  let cur1 :=
    match rl.type with
    | some t =>
      if t.is_satisfied is_file is_dir = false then
        let msg :=
          if t = .any then "Entity must exist (type: true)"
          else if t = .missing then "Entity must not exist (type: false)"
          else "Entity does not have expected type: \x27" ++ t.valueStr ++ "\x27"
        ruleAddError rl.description psl cur0 (.msg msg) (some (.key "type")) none
      else cur0
    | none => cur0
  let cur2 := validStage V.env rl.description psl "valid" rl.valid false path
    is_file is_dir cur1
  validStage V.env rl.description psl "validMeta" rl.validMeta true path
    is_file is_dir cur2

mutual

/-- `DSValidator.validate_path` from `validate.py`: apply the rule to the
path under the given evaluation context, returning success and the updated
context (the Python method mutates the context in place).  Stage 1
(match/rewrite) is inline; the later stages are the helper functions below. -/
def validatePath (V : DSValidator) (path : String) (rule : DSRule)
    (cur : DSEvalCtx) : Bool × DSEvalCtx :=
  match rule with
  | .bool b =>
    if b = false then
      let c1 := { cur with failed := true }
      let c2 := c1.add_error (.msg "Reached unsatisfiable \x27false\x27 rule") none none
      (!c2.failed, c2)
    else (!cur.failed, cur)
  | .node rl =>
    -- stage 1: match / rewrite
    let psl := PathSlice.into path (some cur.matchStart) (some cur.matchStop)
    if rl.match_.isSome || rl.rewrite.isSome then
      match psl.rewrite cur.matchPat rl.rewrite with
      | some rewritten => validateNode V path rl cur psl rewritten.unslice
      | none =>
        let op := if rl.rewrite.isSome then "rewrite" else "match"
        let pat := cur.matchPat.getD PathSlice.defPat
        let matchPatS := "match \x27" ++ pat.pattern ++ "\x27"
        let rwPatS :=
          match rl.rewrite with
          | some rw => " and rewrite to \x27" ++ rw ++ "\x27"
          | none => ""
        let cur2 :=
          match rl.description with
          | some d => cur.add_error (.msg d) (some (.key op)) none
          | none =>
            cur.add_error (.msg ("Failed to " ++ matchPatS ++ rwPatS)) (some (.key op)) none
        (false, { cur2 with failed := true })
    else
      validateNode V path rl cur psl path
termination_by (sizeOf rule, 3)
decreasing_by
  all_goals simp_wf
  all_goals (apply Prod.Lex.left; first | omega | exact sizeOf_node rl)

/-- Stages 2 to 4 of `validate_path` for an object rule, in source order:
primitive constraints, if/then/else, the `allOf`/`anyOf`/`oneOf` loop, `not`,
and `next` on the possibly rewritten path. -/
def validateNode (V : DSValidator) (path : String) (rl : RuleF DSRule)
    (cur0 : DSEvalCtx) (psl : PathSlice) (nextPath : String) : Bool × DSEvalCtx :=
  let cur3 := stage2 V path rl cur0 psl
  if cur3.failed then (false, cur3)
  else
    let cur4 := evalITE V path rl cur3
    let cur5 := evalOp V path rl psl "allOf" rl.allOf cur4
    let cur6 := evalOp V path rl psl "anyOf" rl.anyOf cur5
    let cur7 := evalOp V path rl psl "oneOf" rl.oneOf cur6
    let cur8 := evalNot V path rl psl cur7
    if cur8.failed then (false, cur8)
    else evalNext V path rl nextPath cur8
termination_by (sizeOf rl, 2)
decreasing_by
  all_goals simp_wf
  all_goals first
    | (apply Prod.Lex.right; omega)
    | (apply Prod.Lex.left;
       first
         | exact sizeOf_field_allOf rl
         | exact sizeOf_field_anyOf rl
         | exact sizeOf_field_oneOf rl)

/-- The if/then/else part of stage 3 of `validate_path`: the `if` rule is
evaluated silently; `then`/`else` failures mark the context failed and merge
their errors when `details` is set. -/
def evalITE (V : DSValidator) (path : String) (rl : RuleF DSRule)
    (cur3 : DSEvalCtx) : DSEvalCtx :=
  match hif : rl.if_ with
  | none => cur3
  | some ifR =>
    let ifCtx := cur3.descend ifR (some path) (some (.key "if"))
    if (validatePath V path ifR ifCtx).1 then
      match hth : rl.then_ with
      | none => cur3
      | some thenR =>
        let thenCtx := cur3.descend thenR (some path) (some (.key "then"))
        let res := validatePath V path thenR thenCtx
        if res.1 = false then
          let c := { cur3 with failed := true }
          if rl.details then c.add_errors [res.2.errors] else c
        else cur3
    else
      match hel : rl.else_ with
      | none => cur3
      | some elseR =>
        let elseCtx := cur3.descend elseR (some path) (some (.key "else"))
        let res := validatePath V path elseR elseCtx
        if res.1 = false then
          let c := { cur3 with failed := true }
          if rl.details then c.add_errors [res.2.errors] else c
        else cur3
termination_by (sizeOf rl, 1)
decreasing_by
  all_goals simp_wf
  · apply Prod.Lex.left
    exact sizeOf_field_if rl ifR hif
  · apply Prod.Lex.left
    exact sizeOf_field_then rl thenR hth
  · apply Prod.Lex.left
    exact sizeOf_field_else rl elseR hel

/-- One iteration of the `for op in ("allOf", "anyOf", "oneOf")` loop of
`validate_path`. -/
def evalOp (V : DSValidator) (path : String) (rl : RuleF DSRule) (psl : PathSlice)
    (op : String) (val : List DSRule) (cur : DSEvalCtx) : DSEvalCtx :=
  let opCtx := cur.descend (.node rl) none (some (.key op))
  if val.length = 0 then cur
  else
    let res := evalSubRules V path (op = "anyOf") val 0 opCtx
    let num_fails := res.1
    let suberrs := res.2
    let num_rules := val.length
    let num_sat := num_rules - num_fails
    let err_msg :=
      if op = "allOf" ∧ num_fails > 0 then "All"
      else if op = "oneOf" ∧ num_fails ≠ num_rules - 1 then "Exactly 1"
      else if op = "anyOf" ∧ num_fails = num_rules then "At least 1"
      else ""
    if err_msg ≠ "" then
      let msg := err_msg ++ " of " ++ toString num_rules ++
        " sub-rules must be satisfied (satisfied: " ++ toString num_sat ++ ")"
      let cur2 := ruleAddError rl.description psl cur (.msg msg) (some (.key op)) none
      if rl.details then cur2.add_errors suberrs else cur2
    else cur
termination_by (sizeOf val, 1)
decreasing_by
  all_goals simp_wf
  apply Prod.Lex.right
  omega

/-- The inner `for idx, r in enumerate(val)` loop: returns the number of
failures and the collected non-empty sub-error dicts; an `anyOf` success
discards them and stops. -/
def evalSubRules (V : DSValidator) (path : String) (isAnyOf : Bool) :
    List DSRule → Nat → DSEvalCtx → Nat × List DSValidationErrors
  | [], _, _ => (0, [])
  | r :: rest, idx, opCtx =>
    let subCtx := opCtx.descend r none (some (.idx idx))
    let res := validatePath V path r subCtx
    if res.1 ∧ isAnyOf then (0, [])
    else if res.1 then evalSubRules V path isAnyOf rest (idx + 1) opCtx
    else
      let r2 := evalSubRules V path isAnyOf rest (idx + 1) opCtx
      (r2.1 + 1, (if res.2.errors ≠ [] then [res.2.errors] else []) ++ r2.2)
termination_by rules _ _ => (sizeOf rules, 0)
decreasing_by
  all_goals simp_wf
  all_goals (apply Prod.Lex.left; first | omega | (simp only [List.cons.sizeOf_spec]; omega))

/-- The `not` part of stage 3 of `validate_path`. -/
def evalNot (V : DSValidator) (path : String) (rl : RuleF DSRule) (psl : PathSlice)
    (cur7 : DSEvalCtx) : DSEvalCtx :=
  match hnot : rl.not_ with
  | none => cur7
  | some notR =>
    let notCtx := cur7.descend notR (some path) (some (.key "not"))
    if (validatePath V path notR notCtx).1 then
      ruleAddError rl.description psl cur7
        (.msg "Negated sub-rule satisfied, but should have failed")
        (some (.key "not")) none
    else cur7
termination_by (sizeOf rl, 1)
decreasing_by
  all_goals simp_wf
  apply Prod.Lex.left
  exact sizeOf_field_not rl notR hnot

/-- Stage 4 of `validate_path`: the `next` rule on the possibly rewritten
path. -/
def evalNext (V : DSValidator) (path : String) (rl : RuleF DSRule)
    (nextPath : String) (cur8 : DSEvalCtx) : Bool × DSEvalCtx :=
  match hnx : rl.next with
  | none => (true, cur8)
  | some nextR =>
    let nextCtx := cur8.descend nextR (some nextPath) (some (.key "next"))
    let res := validatePath V nextPath nextR nextCtx
    if res.1 = false then
      (false, if rl.details then cur8.add_errors [res.2.errors] else cur8)
    else (true, cur8)
termination_by (sizeOf rl, 1)
decreasing_by
  all_goals simp_wf
  apply Prod.Lex.left
  exact sizeOf_field_next rl nextR hnx

end

set_option maxHeartbeats 200000

/-- One per-path run of `DSValidator.validate`: a fresh context, then
`validate_path` on the schema. -/
def runPath (V : DSValidator) (A : IDirectory) (p : String) : Bool × DSEvalCtx :=
  validatePath V p V.schema (DSEvalCtx.fresh V.schema A V.meta_conv p)

/-- The per-path loop of `DSValidator.validate`, accumulating the error
dict. -/
def validateGo (V : DSValidator) (A : IDirectory) :
    List String → List (String × DSValidationErrors) → List (String × DSValidationErrors)
  | [], acc => acc
  | p :: rest, acc =>
    let res := runPath V A p
    let acc2 :=
      if res.1 then acc
      else
        updateAssoc acc p
          (if res.2.errors ≠ [] then res.2.errors
           else [([], ⟨p, .msg "Validation failed (no error log available)."⟩)])
    validateGo V A rest acc2

/-- `DSValidator.validate` from `validate.py`: enumerate the adapter's paths,
filter out metadata companions, validate each remaining path with a fresh
context, and collect per-path error dicts for the failures. -/
def DSValidator.validate (V : DSValidator) (A : IDirectory) :
    List (String × DSValidationErrors) :=
  validateGo V A (A.get_paths.filter (fun p => !(V.meta_conv.is_meta p))) []

/-! ## Concrete fixtures for counterexamples and witnesses -/

/-- A minimal adapter: only the root, a directory; nothing can be opened. -/
def trivAdapter : IDirectory :=
  { get_paths := [""], is_dir := fun _ => true, is_file := fun _ => false,
    open_file := fun _ => none, decode_json := fun _ _ => none }

/-- A JSON environment whose validations always succeed. -/
def trivEnv : JsonEnv :=
  { resolve := fun s => .schema s, validate_metadata := fun _ _ => [] }

/-- A sample evaluation context at location `/x` for path `p`. -/
def sampleCtx : DSEvalCtx :=
  { dirAdapter := trivAdapter, filePath := "p", location := [.key "x"] }

/-- A trivial validator fixture. -/
def trivV : DSValidator := { schema := .bool true, env := trivEnv }

/-! ## C1: the `matchStop` override in `descend` -/

/-- C1 (code bug): `DSEvalCtx.descend` is required (spec §9, and the comment
over the override block) to let a child's `matchStop` override `matchStop`,
leaving `matchStart` alone.  The code (`validate.py` line 127) instead
assigns the child's `matchStop` to `matchStart`: descending from a context
with `matchStart = 1, matchStop = 2` into a child rule with `matchStop = 3`
yields `matchStart = 3` and `matchStop = 2` instead of `matchStart = 1`,
`matchStop = 3`. -/
theorem C1_descend_matchstop_bug :
    (let ctx : DSEvalCtx := { sampleCtx with matchStart := 1, matchStop := 2 }
     let child : DSRule := .node { matchStop := some 3 }
     (ctx.descend child none none).matchStart = 3 ∧
       (ctx.descend child none none).matchStop = 2) := by
  exact ⟨rfl, rfl⟩

/-! ## C2: boolean rule semantics -/

/-- C2 fails as stated: the recorded message is
`"Reached unsatisfiable 'false' rule"`, not `"reached unsatisfiable false"`;
moreover `validate_path` on the rule `true` returns `not ctx.failed`, so in a
context already marked failed even `true` does not succeed. -/
theorem C2_counterexample :
    (validatePath trivV "p" (.bool false) sampleCtx).2.errors =
        [([.key "x"], ⟨"p", .msg "Reached unsatisfiable \x27false\x27 rule"⟩)] ∧
      ("Reached unsatisfiable \x27false\x27 rule" : String) ≠
        "reached unsatisfiable false" ∧
      (validatePath trivV "p" (.bool true) { sampleCtx with failed := true }).1 = false := by
  refine ⟨?_, by decide, ?_⟩
  · simp [validatePath, sampleCtx, DSEvalCtx.add_error, updateAssoc]
  · simp [validatePath]

/-- Amended C2: in a context not already marked failed, the rule `true`
succeeds and records nothing, and the rule `false` fails, recording
`"Reached unsatisfiable 'false' rule"` at the context's current location for
its current file path. -/
theorem C2_bool_rules_amended (V : DSValidator) (path : String) (c : DSEvalCtx)
    (h : c.failed = false) :
    (validatePath V path (.bool true) c).1 = true ∧
    (validatePath V path (.bool true) c).2.errors = c.errors ∧
    (validatePath V path (.bool false) c).1 = false ∧
    (validatePath V path (.bool false) c).2.errors =
      updateAssoc c.errors c.location
        ⟨c.filePath, .msg "Reached unsatisfiable \x27false\x27 rule"⟩ := by
  refine ⟨?_, ?_, ?_, ?_⟩ <;> simp [validatePath, DSEvalCtx.add_error, h]

theorem C2_bool_rules_amended_witness :
    sampleCtx.failed = false ∧
      (validatePath trivV "p" (.bool true) sampleCtx).1 = true ∧
      (validatePath trivV "p" (.bool false) sampleCtx).1 = false :=
  ⟨rfl, (C2_bool_rules_amended trivV "p" sampleCtx rfl).1,
    (C2_bool_rules_amended trivV "p" sampleCtx rfl).2.2.1⟩

/-! ## C8: zero match indices never override -/

/-- C8: `descend` applies a match-index override only when the child's value
is truthy, so an explicit `0` (like an absent value) never overrides: with
both child indices in `{None, 0}` the descended context keeps both inherited
indices, a child `matchStop` in `{None, 0}` always leaves `matchStop`
unchanged, and a non-zero inherited index can never be reset to `0`. -/
theorem C8_zero_never_overrides (ctx : DSEvalCtx) (rl : RuleF DSRule)
    (fp : Option String) (rv : Option LocStep) :
    ((rl.matchStart = none ∨ rl.matchStart = some 0) →
      (rl.matchStop = none ∨ rl.matchStop = some 0) →
      ((ctx.descend (.node rl) fp rv).matchStart = ctx.matchStart ∧
        (ctx.descend (.node rl) fp rv).matchStop = ctx.matchStop)) ∧
    ((rl.matchStop = none ∨ rl.matchStop = some 0) →
      (ctx.descend (.node rl) fp rv).matchStop = ctx.matchStop) ∧
    (ctx.matchStart ≠ 0 → (ctx.descend (.node rl) fp rv).matchStart ≠ 0) ∧
    (ctx.matchStop ≠ 0 → (ctx.descend (.node rl) fp rv).matchStop ≠ 0) := by
  unfold DSEvalCtx.descend
  rcases hms : rl.matchStart with _ | i <;> rcases hmp : rl.matchStop with _ | j <;>
    rcases hpat : rl.match_ with _ | pat <;> cases fp <;> cases rv <;>
    refine ⟨?_, ?_, ?_, ?_⟩ <;>
    first
      | (rintro (h | h) (h2 | h2) <;> simp_all <;> split <;> simp_all)
      | (rintro (h | h) <;> simp_all <;> split <;> simp_all <;> split <;> simp_all)
      | (intro h <;> simp_all <;> split <;> simp_all <;> split <;> simp_all)

theorem C8_zero_never_overrides_witness :
    (let rl : RuleF DSRule := { matchStart := some 0, matchStop := some 0 }
     let ctx : DSEvalCtx := { sampleCtx with matchStart := 5, matchStop := 7 }
     (ctx.descend (.node rl) none none).matchStart = 5 ∧
       (ctx.descend (.node rl) none none).matchStop = 7) := by
  intro rl ctx
  exact (C8_zero_never_overrides ctx rl none none).1 (Or.inr rfl) (Or.inr rfl)

/-! ## C10: the shape of the `validate` result -/

theorem mem_updateAssoc {κ ν : Type} [DecidableEq κ] (l : List (κ × ν)) (k : κ)
    (v : ν) (kv : κ × ν) (h : kv ∈ updateAssoc l k v) : kv ∈ l ∨ kv = (k, v) := by
  unfold updateAssoc at h
  split at h
  · rcases List.mem_map.mp h with ⟨kv0, hkv0, heq⟩
    by_cases hk : kv0.1 = k
    · right
      rw [if_pos hk] at heq
      exact heq.symm
    · left
      rw [if_neg hk] at heq
      exact heq ▸ hkv0
  · rcases List.mem_append.mp h with h1 | h1
    · exact Or.inl h1
    · exact Or.inr (List.mem_singleton.mp h1)

theorem exists_mem_updateAssoc {κ ν : Type} [DecidableEq κ] (l : List (κ × ν))
    (k : κ) (v : ν) (x : κ) (h : ∃ e, (x, e) ∈ l) :
    ∃ e, (x, e) ∈ updateAssoc l k v := by
  obtain ⟨e, he⟩ := h
  unfold updateAssoc
  split
  · by_cases hx : x = k
    · subst hx
      exact ⟨v, List.mem_map.mpr ⟨(x, e), he, by rw [if_pos rfl]⟩⟩
    · exact ⟨e, List.mem_map.mpr ⟨(x, e), he, by rw [if_neg hx]⟩⟩
  · exact ⟨e, List.mem_append.mpr (Or.inl he)⟩

theorem key_self_mem_updateAssoc {κ ν : Type} [DecidableEq κ] (l : List (κ × ν))
    (k : κ) (v : ν) : ∃ e, (k, e) ∈ updateAssoc l k v := by
  unfold updateAssoc
  split
  · rename_i hk
    obtain ⟨kv, hkv, hfst⟩ := List.mem_map.mp hk
    exact ⟨v, List.mem_map.mpr ⟨kv, hkv, by rw [if_pos hfst]⟩⟩
  · exact ⟨v, List.mem_append.mpr (Or.inr (List.mem_singleton.mpr rfl))⟩

/-- The value `validate` stores for a failing path: the context's error dict
if non-empty, else the fallback record. -/
def failEntry (V : DSValidator) (A : IDirectory) (p : String) : DSValidationErrors :=
  if (runPath V A p).2.errors ≠ [] then (runPath V A p).2.errors
  else [([], ⟨p, .msg "Validation failed (no error log available)."⟩)]

theorem validateGo_mem (V : DSValidator) (A : IDirectory) :
    ∀ (paths : List String) (acc : List (String × DSValidationErrors))
      (pe : String × DSValidationErrors), pe ∈ validateGo V A paths acc →
      pe ∈ acc ∨ ((runPath V A pe.1).1 = false ∧ pe.2 = failEntry V A pe.1) := by
  intro paths
  induction paths with
  | nil =>
    intro acc pe h
    rw [validateGo] at h
    exact Or.inl h
  | cons p rest ih =>
    intro acc pe h
    rw [validateGo] at h
    by_cases hres : (runPath V A p).1 = true
    · rw [if_pos hres] at h
      exact ih _ pe h
    · rw [if_neg hres] at h
      rcases ih _ pe h with hacc | hok
      · rcases mem_updateAssoc _ _ _ _ hacc with h1 | h1
        · exact Or.inl h1
        · right
          have hp : pe.1 = p := by rw [h1]
          refine ⟨by rw [hp]; exact Bool.not_eq_true _ ▸ eq_false_of_ne_true hres, ?_⟩
          rw [h1]
          rfl
      · exact Or.inr hok

theorem validateGo_key_absent (V : DSValidator) (A : IDirectory) :
    ∀ (paths : List String) (acc : List (String × DSValidationErrors))
      (p0 : String) (e : DSValidationErrors),
      (runPath V A p0).1 = true → (p0, e) ∉ acc →
      (p0, e) ∉ validateGo V A paths acc := by
  intro paths
  induction paths with
  | nil =>
    intro acc p0 e _ hnot h
    rw [validateGo] at h
    exact hnot h
  | cons p rest ih =>
    intro acc p0 e hsucc hnot h
    rw [validateGo] at h
    by_cases hres : (runPath V A p).1 = true
    · rw [if_pos hres] at h
      exact ih _ p0 e hsucc hnot h
    · rw [if_neg hres] at h
      refine ih _ p0 e hsucc ?_ h
      intro hmem
      rcases mem_updateAssoc _ _ _ _ hmem with h1 | h1
      · exact hnot h1
      · have hp : p0 = p := congrArg Prod.fst h1
        rw [hp] at hsucc
        exact hres hsucc

theorem validateGo_key_preserved (V : DSValidator) (A : IDirectory) :
    ∀ (paths : List String) (acc : List (String × DSValidationErrors)) (p0 : String),
      (∃ e, (p0, e) ∈ acc) → ∃ e, (p0, e) ∈ validateGo V A paths acc := by
  intro paths
  induction paths with
  | nil =>
    intro acc p0 h
    rw [validateGo]
    exact h
  | cons p rest ih =>
    intro acc p0 h
    rw [validateGo]
    by_cases hres : (runPath V A p).1 = true
    · rw [if_pos hres]
      exact ih _ p0 h
    · rw [if_neg hres]
      exact ih _ p0 (exists_mem_updateAssoc acc p _ p0 h)

theorem validateGo_fail_present (V : DSValidator) (A : IDirectory) :
    ∀ (paths : List String) (acc : List (String × DSValidationErrors)) (p0 : String),
      p0 ∈ paths → (runPath V A p0).1 = false →
      ∃ e, (p0, e) ∈ validateGo V A paths acc := by
  intro paths
  induction paths with
  | nil =>
    intro acc p0 h
    exact absurd h (List.not_mem_nil p0)
  | cons p rest ih =>
    intro acc p0 hmem hfail
    rw [validateGo]
    rcases List.mem_cons.mp hmem with rfl | hmem2
    · by_cases hres : (runPath V A p0).1 = true
      · rw [hfail] at hres
        exact absurd hres (by decide)
      · rw [if_neg hres]
        exact validateGo_key_preserved V A rest _ p0 (key_self_mem_updateAssoc acc p0 _)
    · exact ih _ p0 hmem2 hfail

/-- C10: `DSValidator.validate` maps every failing path to a non-empty error
dict: every enumerated non-companion path whose evaluation fails appears in
the result, every result entry is such a failing path with a non-empty dict —
the context's errors if any were recorded, else the fallback record
`"Validation failed (no error log available)."` keyed by the empty location —
and paths whose evaluation succeeds never appear in the result. -/
theorem C10_validate_error_map (V : DSValidator) (A : IDirectory) :
    (∀ pe ∈ V.validate A,
      pe.2 ≠ [] ∧ (runPath V A pe.1).1 = false ∧
      ((runPath V A pe.1).2.errors ≠ [] → pe.2 = (runPath V A pe.1).2.errors) ∧
      ((runPath V A pe.1).2.errors = [] →
        pe.2 = [([], ⟨pe.1, .msg "Validation failed (no error log available)."⟩)])) ∧
    (∀ p ∈ A.get_paths.filter (fun q => !(V.meta_conv.is_meta q)),
      (runPath V A p).1 = false → ∃ e, (p, e) ∈ V.validate A) ∧
    (∀ p0, (runPath V A p0).1 = true → ∀ e, (p0, e) ∉ V.validate A) := by
  refine ⟨?_, ?_, ?_⟩
  · intro pe hpe
    rw [DSValidator.validate] at hpe
    rcases validateGo_mem V A _ [] pe hpe with h | h
    · exact absurd h (List.not_mem_nil pe)
    · obtain ⟨hfail, hfe⟩ := h
      refine ⟨?_, hfail, ?_, ?_⟩
      · rw [hfe]
        unfold failEntry
        split
        · assumption
        · simp
      · intro hne
        rw [hfe]
        unfold failEntry
        rw [if_pos hne]
      · intro heq
        rw [hfe]
        unfold failEntry
        rw [if_neg (by simp [heq])]
  · intro p hp hfail
    rw [DSValidator.validate]
    exact validateGo_fail_present V A _ [] p hp hfail
  · intro p0 hsucc e
    rw [DSValidator.validate]
    exact validateGo_key_absent V A _ [] p0 e hsucc (List.not_mem_nil _)

theorem C10_validate_error_map_witness :
    (("", [([], ⟨"", ErrVal.msg "Reached unsatisfiable \x27false\x27 rule"⟩)]) :
        String × DSValidationErrors) ∈
      (DSValidator.mk (.bool false) {} trivEnv).validate trivAdapter ∧
    ([([], ⟨"", ErrVal.msg "Reached unsatisfiable \x27false\x27 rule"⟩)] :
        DSValidationErrors) ≠ [] := by
  have hm : (("", [([], ⟨"", ErrVal.msg "Reached unsatisfiable \x27false\x27 rule"⟩)]) :
      String × DSValidationErrors) ∈
      (DSValidator.mk (.bool false) {} trivEnv).validate trivAdapter := by
    simp [DSValidator.validate, validateGo, runPath, DSEvalCtx.fresh, DSEvalCtx.descend,
      validatePath, DSEvalCtx.add_error, updateAssoc, trivAdapter,
      MetaConvention.is_meta, pySplitSlash, splitOnChar, pyStartsWith, pyEndsWith]
  exact ⟨hm, ((C10_validate_error_map (DSValidator.mk (.bool false) {} trivEnv)
    trivAdapter).1 _ hm).1⟩

/-! ## C7: error-key structure of the evaluator

First, every error key recorded by the evaluator either comes from the input
context's error dict or extends the input context's location. -/

theorem locPre_append {α : Type} (l r : List α) : l <+: l ++ r := ⟨r, rfl⟩

theorem locPre_refl {α : Type} (l : List α) : l <+: l := ⟨[], by simp⟩

theorem locPre_of_append {α : Type} (a b c : List α) (h : a ++ b <+: c) : a <+: c := by
  obtain ⟨t, ht⟩ := h
  exact ⟨b ++ t, by rw [← ht, List.append_assoc]⟩

/-- Every key of `out` is a key of `base` or extends `loc`. -/
def KeysUnder (out base : DSValidationErrors) (loc : List LocStep) : Prop :=
  ∀ x ∈ out.map Prod.fst, x ∈ base.map Prod.fst ∨ loc <+: x

theorem keysUnder_refl (e : DSValidationErrors) (loc : List LocStep) :
    KeysUnder e e loc := fun _x hx => Or.inl hx

theorem keysUnder_trans (e2 e1 e0 : DSValidationErrors) (loc : List LocStep)
    (h21 : KeysUnder e2 e1 loc) (h10 : KeysUnder e1 e0 loc) : KeysUnder e2 e0 loc :=
  fun x hx => (h21 x hx).elim (h10 x) Or.inr

theorem key_mem_updateAssoc {κ ν : Type} [DecidableEq κ] (l : List (κ × ν)) (k : κ)
    (v : ν) (x : κ) (h : x ∈ (updateAssoc l k v).map Prod.fst) :
    x ∈ l.map Prod.fst ∨ x = k := by
  rcases List.mem_map.mp h with ⟨kv, hkv, heq⟩
  rcases mem_updateAssoc l k v kv hkv with h1 | h1
  · exact Or.inl (heq ▸ List.mem_map_of_mem Prod.fst h1)
  · right
    rw [← heq, h1]

theorem key_mem_updateAll {κ ν : Type} [DecidableEq κ] :
    ∀ (upd l : List (κ × ν)) (x : κ), x ∈ (updateAll l upd).map Prod.fst →
      x ∈ l.map Prod.fst ∨ x ∈ upd.map Prod.fst := by
  intro upd
  induction upd with
  | nil => intro l x h; exact Or.inl h
  | cons u us ih =>
    intro l x h
    have h2 : x ∈ (updateAll (updateAssoc l u.1 u.2) us).map Prod.fst := h
    rcases ih _ x h2 with h3 | h3
    · rcases key_mem_updateAssoc l u.1 u.2 x h3 with h4 | h4
      · exact Or.inl h4
      · refine Or.inr ?_
        rw [h4]
        exact List.mem_map_of_mem Prod.fst (List.mem_cons_self u us)
    · rcases List.mem_map.mp h3 with ⟨kv, hkv, hx⟩
      exact Or.inr (List.mem_map.mpr ⟨kv, List.mem_cons_of_mem u hkv, hx⟩)

theorem add_error_keys (c : DSEvalCtx) (err : ErrVal) (child : Option LocStep)
    (pa : Option String) :
    KeysUnder (DSEvalCtx.add_error c err child pa).errors c.errors c.location := by
  intro x hx
  unfold DSEvalCtx.add_error at hx
  cases child with
  | none =>
    rcases key_mem_updateAssoc _ _ _ x hx with h1 | h1
    · exact Or.inl h1
    · right
      rw [h1]
      all_goals exact locPre_refl _
  | some ch =>
    rcases key_mem_updateAssoc _ _ _ x hx with h1 | h1
    · exact Or.inl h1
    · right
      rw [h1]
      all_goals exact locPre_append _ _

theorem add_errors_keys (c : DSEvalCtx) (ds : List DSValidationErrors) :
    ∀ x ∈ (DSEvalCtx.add_errors c ds).errors.map Prod.fst,
      x ∈ c.errors.map Prod.fst ∨ ∃ d ∈ ds, x ∈ d.map Prod.fst := by
  have haux : ∀ (ds0 : List DSValidationErrors) (e : DSValidationErrors),
      ∀ x ∈ (ds0.foldl (fun acc d => updateAll acc d) e).map Prod.fst,
        x ∈ e.map Prod.fst ∨ ∃ d ∈ ds0, x ∈ d.map Prod.fst := by
    intro ds0
    induction ds0 with
    | nil => intro e x hx; exact Or.inl hx
    | cons d rest ih =>
      intro e x hx
      rcases ih (updateAll e d) x hx with h1 | h1
      · rcases key_mem_updateAll d e x h1 with h2 | h2
        · exact Or.inl h2
        · exact Or.inr ⟨d, List.mem_cons_self d rest, h2⟩
      · obtain ⟨d2, hd2, hx2⟩ := h1
        exact Or.inr ⟨d2, List.mem_cons_of_mem d hd2, hx2⟩
  exact haux ds c.errors

theorem ruleAddError_keys (desc : Option String) (psl : PathSlice) (c : DSEvalCtx)
    (err : ErrVal) (child : Option LocStep) (pa : Option String) :
    KeysUnder (ruleAddError desc psl c err child pa).errors c.errors c.location := by
  intro x hx
  unfold ruleAddError at hx
  rcases desc with _ | d
  · exact add_error_keys c err child pa x hx
  · simp only at hx
    split at hx
    · split at hx
      · exact add_error_keys c _ none none x hx
      · exact add_error_keys c _ none none x hx
    · exact Or.inl hx

theorem validStage_keys (env : JsonEnv) (desc : Option String) (psl : PathSlice)
    (key : String) (vref : Option String) (ivm : Bool) (path : String)
    (f d : Bool) (c : DSEvalCtx) :
    KeysUnder (validStage env desc psl key vref ivm path f d c).errors c.errors
      c.location := by
  unfold validStage
  rcases vref with _ | vr
  · exact keysUnder_refl _ _
  · simp only
    split
    · exact ruleAddError_keys desc psl c _ _ _
    · split
      · exact ruleAddError_keys desc psl c _ _ _
      · split
        · split
          · exact ruleAddError_keys desc psl c _ _ _
          · split
            · exact ruleAddError_keys desc psl c _ _ _
            · exact keysUnder_refl _ _
        · split
          · exact ruleAddError_keys desc psl c _ _ _
          · exact keysUnder_refl _ _

/-! Location preservation of the error-recording helpers. -/

theorem add_error_location (c : DSEvalCtx) (err : ErrVal) (child : Option LocStep)
    (pa : Option String) : (DSEvalCtx.add_error c err child pa).location = c.location :=
  rfl

theorem add_errors_location (c : DSEvalCtx) (ds : List DSValidationErrors) :
    (DSEvalCtx.add_errors c ds).location = c.location := rfl

theorem ruleAddError_location (desc : Option String) (psl : PathSlice) (c : DSEvalCtx)
    (err : ErrVal) (child : Option LocStep) (pa : Option String) :
    (ruleAddError desc psl c err child pa).location = c.location := by
  unfold ruleAddError
  rcases desc with _ | d
  · rfl
  · simp only
    split
    · split <;> rfl
    · rfl

theorem validStage_location (env : JsonEnv) (desc : Option String) (psl : PathSlice)
    (key : String) (vref : Option String) (ivm : Bool) (path : String)
    (f d : Bool) (c : DSEvalCtx) :
    (validStage env desc psl key vref ivm path f d c).location = c.location := by
  unfold validStage
  rcases vref with _ | vr
  · rfl
  · simp only
    split
    · exact ruleAddError_location ..
    · split
      · exact ruleAddError_location ..
      · split
        · split
          · exact ruleAddError_location ..
          · split
            · exact ruleAddError_location ..
            · rfl
        · split
          · exact ruleAddError_location ..
          · rfl

theorem stage2_location (V : DSValidator) (path : String) (rl : RuleF DSRule)
    (c : DSEvalCtx) (psl : PathSlice) : (stage2 V path rl c psl).location = c.location := by
  unfold stage2
  simp only
  rw [validStage_location, validStage_location]
  split
  · split
    · exact ruleAddError_location ..
    · rfl
  · rfl

/-! Facts about `descend`: it clears the error dict, extends the location by
the step it was reached via, and leaves the location alone otherwise. -/

theorem descend_errors (ctx : DSEvalCtx) (rule : DSRule) (fp : Option String)
    (rv : Option LocStep) : (DSEvalCtx.descend ctx rule fp rv).errors = [] := by
  unfold DSEvalCtx.descend
  rcases rule with b | rl
  · cases fp <;> cases rv <;> rfl
  · simp only
    cases fp <;> cases rv <;> (repeat' split) <;> rfl

theorem descend_location_some (ctx : DSEvalCtx) (rule : DSRule) (fp : Option String)
    (s : LocStep) :
    (DSEvalCtx.descend ctx rule fp (some s)).location = ctx.location ++ [s] := by
  unfold DSEvalCtx.descend
  rcases rule with b | rl
  · cases fp <;> rfl
  · simp only
    cases fp <;> (repeat' split) <;> rfl

theorem keysUnder_chain (e2 : DSValidationErrors) (c1 c0 : DSEvalCtx)
    (h21 : KeysUnder e2 c1.errors c1.location)
    (hl : c1.location = c0.location)
    (h10 : KeysUnder c1.errors c0.errors c0.location) :
    KeysUnder e2 c0.errors c0.location := by
  rw [hl] at h21
  exact keysUnder_trans _ _ _ _ h21 h10

theorem stage2_keys (V : DSValidator) (path : String) (rl : RuleF DSRule)
    (c : DSEvalCtx) (psl : PathSlice) :
    KeysUnder (stage2 V path rl c psl).errors c.errors c.location := by
  unfold stage2
  simp only
  refine keysUnder_chain _ _ _ (validStage_keys _ _ _ _ _ _ _ _ _ _) ?_ ?_
  · rw [validStage_location]
    split
    · split
      · exact ruleAddError_location ..
      · rfl
    · rfl
  · refine keysUnder_chain _ _ _ (validStage_keys _ _ _ _ _ _ _ _ _ _) ?_ ?_
    · split
      · split
        · exact ruleAddError_location ..
        · rfl
      · rfl
    · split
      · split
        · exact ruleAddError_keys _ _ _ _ _ _
        · exact keysUnder_refl _ _
      · exact keysUnder_refl _ _

theorem evalSubRules_keys (V : DSValidator) (path : String) (isAnyOf : Bool) :
    ∀ (val : List DSRule) (idx : Nat) (opCtx : DSEvalCtx),
      (∀ r ∈ val, ∀ (p2 : String) (ctx2 : DSEvalCtx),
        KeysUnder (validatePath V p2 r ctx2).2.errors ctx2.errors ctx2.location) →
      ∀ d ∈ (evalSubRules V path isAnyOf val idx opCtx).2,
        ∀ x ∈ d.map Prod.fst, opCtx.location <+: x := by
  intro val
  induction val with
  | nil =>
    intro idx opCtx _ d hd
    rw [evalSubRules] at hd
    exact absurd hd (List.not_mem_nil d)
  | cons r rest ih =>
    intro idx opCtx hsub d hd x hx
    simp only [evalSubRules] at hd
    split at hd
    · exact absurd hd (List.not_mem_nil d)
    · split at hd
      · exact ih (idx + 1) opCtx
          (fun r2 h2 => hsub r2 (List.mem_cons_of_mem r h2)) d hd x hx
      · rcases List.mem_append.mp hd with h1 | h1
        · have hdres :
              d = (validatePath V path r
                (opCtx.descend r none (some (.idx idx)))).2.errors := by
            split at h1
            · exact List.mem_singleton.mp h1
            · exact absurd h1 (List.not_mem_nil d)
          rw [hdres] at hx
          rcases hsub r (List.mem_cons_self r rest) path
              (opCtx.descend r none (some (.idx idx))) x hx with h2 | h2
          · rw [descend_errors] at h2
            exact absurd h2 (List.not_mem_nil x)
          · rw [descend_location_some] at h2
            exact locPre_of_append _ _ _ h2
        · exact ih (idx + 1) opCtx
            (fun r2 h2 => hsub r2 (List.mem_cons_of_mem r h2)) d h1 x hx

theorem evalITE_keys (V : DSValidator) (path : String) (rl : RuleF DSRule)
    (c : DSEvalCtx)
    (hsub : ∀ r : DSRule, (rl.then_ = some r ∨ rl.else_ = some r) →
      ∀ (p2 : String) (ctx2 : DSEvalCtx),
        KeysUnder (validatePath V p2 r ctx2).2.errors ctx2.errors ctx2.location) :
    KeysUnder (evalITE V path rl c).errors c.errors c.location := by
  unfold evalITE
  rcases hif : rl.if_ with _ | ifR
  · simp only [hif]
    exact keysUnder_refl _ _
  · simp only [hif]
    split
    · rcases hth : rl.then_ with _ | thenR
      · simp only [hth]
        exact keysUnder_refl _ _
      · simp only [hth]
        split
        · split
          · intro x hx
            rcases add_errors_keys _ _ x hx with h1 | h1
            · exact Or.inl h1
            · obtain ⟨d, hd, hx2⟩ := h1
              rw [List.mem_singleton.mp hd] at hx2
              rcases hsub thenR (Or.inl hth) path
                  (c.descend thenR (some path) (some (.key "then"))) x hx2 with h2 | h2
              · rw [descend_errors] at h2
                exact absurd h2 (List.not_mem_nil x)
              · rw [descend_location_some] at h2
                exact Or.inr (locPre_of_append _ _ _ h2)
          · exact keysUnder_refl _ _
        · exact keysUnder_refl _ _
    · rcases hel : rl.else_ with _ | elseR
      · simp only [hel]
        exact keysUnder_refl _ _
      · simp only [hel]
        split
        · split
          · intro x hx
            rcases add_errors_keys _ _ x hx with h1 | h1
            · exact Or.inl h1
            · obtain ⟨d, hd, hx2⟩ := h1
              rw [List.mem_singleton.mp hd] at hx2
              rcases hsub elseR (Or.inr hel) path
                  (c.descend elseR (some path) (some (.key "else"))) x hx2 with h2 | h2
              · rw [descend_errors] at h2
                exact absurd h2 (List.not_mem_nil x)
              · rw [descend_location_some] at h2
                exact Or.inr (locPre_of_append _ _ _ h2)
          · exact keysUnder_refl _ _
        · exact keysUnder_refl _ _

theorem evalOp_details_keys (V : DSValidator) (path : String) (rl : RuleF DSRule)
    (psl : PathSlice) (op : String) (val : List DSRule) (c : DSEvalCtx)
    (hsub : ∀ r ∈ val, ∀ (p2 : String) (ctx2 : DSEvalCtx),
      KeysUnder (validatePath V p2 r ctx2).2.errors ctx2.errors ctx2.location)
    (err : ErrVal) :
    KeysUnder ((ruleAddError rl.description psl c err (some (.key op)) none).add_errors
      (evalSubRules V path (decide (op = "anyOf")) val 0
        (c.descend (.node rl) none (some (.key op)))).2).errors
      c.errors c.location := by
  intro x hx
  rcases add_errors_keys _ _ x hx with h1 | h1
  · exact ruleAddError_keys _ _ _ _ _ _ x h1
  · obtain ⟨d, hd, hx2⟩ := h1
    have h2 := evalSubRules_keys V path (op = "anyOf") val 0
      (c.descend (.node rl) none (some (.key op))) hsub d hd x hx2
    rw [descend_location_some] at h2
    exact Or.inr (locPre_of_append _ _ _ h2)

theorem evalOp_keys (V : DSValidator) (path : String) (rl : RuleF DSRule)
    (psl : PathSlice) (op : String) (val : List DSRule) (c : DSEvalCtx)
    (hsub : ∀ r ∈ val, ∀ (p2 : String) (ctx2 : DSEvalCtx),
      KeysUnder (validatePath V p2 r ctx2).2.errors ctx2.errors ctx2.location) :
    KeysUnder (evalOp V path rl psl op val c).errors c.errors c.location := by
  unfold evalOp
  simp only
  repeat' split
  all_goals first
    | exact keysUnder_refl _ _
    | exact ruleAddError_keys _ _ _ _ _ _
    | exact evalOp_details_keys V path rl psl op val c hsub _

theorem evalNot_keys (V : DSValidator) (path : String) (rl : RuleF DSRule)
    (psl : PathSlice) (c : DSEvalCtx) :
    KeysUnder (evalNot V path rl psl c).errors c.errors c.location := by
  unfold evalNot
  rcases hnot : rl.not_ with _ | notR
  · simp only [hnot]
    exact keysUnder_refl _ _
  · simp only [hnot]
    split
    · exact ruleAddError_keys _ _ _ _ _ _
    · exact keysUnder_refl _ _

theorem evalNext_keys (V : DSValidator) (path : String) (rl : RuleF DSRule)
    (nextPath : String) (c : DSEvalCtx)
    (hsub : ∀ r : DSRule, rl.next = some r →
      ∀ (p2 : String) (ctx2 : DSEvalCtx),
        KeysUnder (validatePath V p2 r ctx2).2.errors ctx2.errors ctx2.location) :
    KeysUnder (evalNext V path rl nextPath c).2.errors c.errors c.location := by
  unfold evalNext
  rcases hnx : rl.next with _ | nextR
  · simp only [hnx]
    exact keysUnder_refl _ _
  · simp only [hnx]
    split
    · split
      · intro x hx
        rcases add_errors_keys _ _ x hx with h1 | h1
        · exact Or.inl h1
        · obtain ⟨d, hd, hx2⟩ := h1
          rw [List.mem_singleton.mp hd] at hx2
          rcases hsub nextR hnx nextPath
              (c.descend nextR (some nextPath) (some (.key "next"))) x hx2 with h2 | h2
          · rw [descend_errors] at h2
            exact absurd h2 (List.not_mem_nil x)
          · rw [descend_location_some] at h2
            exact Or.inr (locPre_of_append _ _ _ h2)
      · exact keysUnder_refl _ _
    · exact keysUnder_refl _ _

/-! Location preservation of the combinator stages. -/

theorem evalITE_location (V : DSValidator) (path : String) (rl : RuleF DSRule)
    (c : DSEvalCtx) : (evalITE V path rl c).location = c.location := by
  unfold evalITE
  simp only
  (repeat' split) <;> rfl

theorem evalOp_location (V : DSValidator) (path : String) (rl : RuleF DSRule)
    (psl : PathSlice) (op : String) (val : List DSRule) (c : DSEvalCtx) :
    (evalOp V path rl psl op val c).location = c.location := by
  unfold evalOp
  simp only
  repeat' split
  all_goals first
    | rfl
    | (rw [add_errors_location]; exact ruleAddError_location ..)
    | exact ruleAddError_location ..

theorem evalNot_location (V : DSValidator) (path : String) (rl : RuleF DSRule)
    (psl : PathSlice) (c : DSEvalCtx) :
    (evalNot V path rl psl c).location = c.location := by
  unfold evalNot
  simp only
  repeat' split
  all_goals first
    | rfl
    | exact ruleAddError_location ..

theorem evalNext_location (V : DSValidator) (path : String) (rl : RuleF DSRule)
    (nextPath : String) (c : DSEvalCtx) :
    (evalNext V path rl nextPath c).2.location = c.location := by
  unfold evalNext
  simp only
  (repeat' split) <;> rfl

theorem validateNode_keys (V : DSValidator) (path : String) (rl : RuleF DSRule)
    (c0 : DSEvalCtx) (psl : PathSlice) (nextPath : String)
    (hsub : ∀ r : DSRule, sizeOf r < sizeOf rl →
      ∀ (p2 : String) (ctx2 : DSEvalCtx),
        KeysUnder (validatePath V p2 r ctx2).2.errors ctx2.errors ctx2.location) :
    KeysUnder (validateNode V path rl c0 psl nextPath).2.errors c0.errors
      c0.location := by
  have hITE : ∀ r : DSRule, (rl.then_ = some r ∨ rl.else_ = some r) →
      ∀ (p2 : String) (ctx2 : DSEvalCtx),
        KeysUnder (validatePath V p2 r ctx2).2.errors ctx2.errors ctx2.location := by
    intro r hr
    rcases hr with h | h
    · exact hsub r (sizeOf_field_then rl r h)
    · exact hsub r (sizeOf_field_else rl r h)
  have hOp : ∀ (val : List DSRule), sizeOf val < sizeOf rl →
      ∀ r ∈ val, ∀ (p2 : String) (ctx2 : DSEvalCtx),
        KeysUnder (validatePath V p2 r ctx2).2.errors ctx2.errors ctx2.location := by
    intro val hval r hr
    exact hsub r (Nat.lt_trans (List.sizeOf_lt_of_mem hr) hval)
  have hNx : ∀ r : DSRule, rl.next = some r →
      ∀ (p2 : String) (ctx2 : DSEvalCtx),
        KeysUnder (validatePath V p2 r ctx2).2.errors ctx2.errors ctx2.location :=
    fun r h => hsub r (sizeOf_field_next rl r h)
  unfold validateNode
  simp only
  split
  · exact stage2_keys _ _ _ _ _
  · split
    · refine keysUnder_chain _ _ _ (evalNot_keys _ _ _ _ _) ?_ ?_
      · rw [evalOp_location, evalOp_location, evalOp_location, evalITE_location]
        exact stage2_location _ _ _ _ _
      · refine keysUnder_chain _ _ _
          (evalOp_keys _ _ _ _ _ _ _ (hOp rl.oneOf (sizeOf_field_oneOf rl))) ?_ ?_
        · rw [evalOp_location, evalOp_location, evalITE_location]
          exact stage2_location _ _ _ _ _
        · refine keysUnder_chain _ _ _
            (evalOp_keys _ _ _ _ _ _ _ (hOp rl.anyOf (sizeOf_field_anyOf rl))) ?_ ?_
          · rw [evalOp_location, evalITE_location]
            exact stage2_location _ _ _ _ _
          · refine keysUnder_chain _ _ _
              (evalOp_keys _ _ _ _ _ _ _ (hOp rl.allOf (sizeOf_field_allOf rl))) ?_ ?_
            · rw [evalITE_location]
              exact stage2_location _ _ _ _ _
            · refine keysUnder_chain _ _ _ (evalITE_keys _ _ _ _ hITE) ?_ ?_
              · exact stage2_location _ _ _ _ _
              · exact stage2_keys _ _ _ _ _
    · refine keysUnder_chain _ _ _ (evalNext_keys _ _ _ _ _ hNx) ?_ ?_
      · rw [evalNot_location, evalOp_location, evalOp_location, evalOp_location,
          evalITE_location]
        exact stage2_location _ _ _ _ _
      · refine keysUnder_chain _ _ _ (evalNot_keys _ _ _ _ _) ?_ ?_
        · rw [evalOp_location, evalOp_location, evalOp_location, evalITE_location]
          exact stage2_location _ _ _ _ _
        · refine keysUnder_chain _ _ _
            (evalOp_keys _ _ _ _ _ _ _ (hOp rl.oneOf (sizeOf_field_oneOf rl))) ?_ ?_
          · rw [evalOp_location, evalOp_location, evalITE_location]
            exact stage2_location _ _ _ _ _
          · refine keysUnder_chain _ _ _
              (evalOp_keys _ _ _ _ _ _ _ (hOp rl.anyOf (sizeOf_field_anyOf rl))) ?_ ?_
            · rw [evalOp_location, evalITE_location]
              exact stage2_location _ _ _ _ _
            · refine keysUnder_chain _ _ _
                (evalOp_keys _ _ _ _ _ _ _ (hOp rl.allOf (sizeOf_field_allOf rl))) ?_ ?_
              · rw [evalITE_location]
                exact stage2_location _ _ _ _ _
              · refine keysUnder_chain _ _ _ (evalITE_keys _ _ _ _ hITE) ?_ ?_
                · exact stage2_location _ _ _ _ _
                · exact stage2_keys _ _ _ _ _

theorem validatePath_keys_aux : ∀ (n : Nat) (rule : DSRule), sizeOf rule ≤ n →
    ∀ (V : DSValidator) (path : String) (ctx : DSEvalCtx),
      KeysUnder (validatePath V path rule ctx).2.errors ctx.errors ctx.location := by
  intro n
  induction n using Nat.strong_induction_on with
  | _ n IH =>
    intro rule hsz V path ctx
    rcases rule with b | rl
    · cases b
      · intro x hx
        simp only [validatePath] at hx
        rw [if_pos trivial] at hx
        exact add_error_keys { ctx with failed := true } _ none none x hx
      · intro x hx
        simp only [validatePath] at hx
        rw [if_neg (show ¬(true = false) by decide)] at hx
        exact Or.inl hx
    · have hsub : ∀ r : DSRule, sizeOf r < sizeOf rl →
          ∀ (p2 : String) (ctx2 : DSEvalCtx),
            KeysUnder (validatePath V p2 r ctx2).2.errors ctx2.errors ctx2.location := by
        intro r hr p2 ctx2
        exact IH (sizeOf r)
          (Nat.lt_of_lt_of_le (Nat.lt_trans hr (sizeOf_node rl)) hsz) r (Nat.le_refl _)
          V p2 ctx2
      intro x hx
      simp only [validatePath] at hx
      split at hx
      · split at hx
        · exact validateNode_keys V path rl ctx _ _ hsub x hx
        · split at hx
          · exact add_error_keys ctx _
              (some (.key (if rl.rewrite.isSome = true then "rewrite" else "match")))
              none x hx
          · exact add_error_keys ctx _
              (some (.key (if rl.rewrite.isSome = true then "rewrite" else "match")))
              none x hx
      · exact validateNode_keys V path rl ctx _ _ hsub x hx

theorem validatePath_keys (V : DSValidator) (path : String) (rule : DSRule)
    (ctx : DSEvalCtx) :
    KeysUnder (validatePath V path rule ctx).2.errors ctx.errors ctx.location :=
  validatePath_keys_aux (sizeOf rule) rule (Nat.le_refl _) V path ctx

/-! The rank of a stage of `validate_path`, as keyed by the location step the
stage records its errors under (relative to the node's own location): the
primitive constraints first, then if/then/else, then the `allOf`, `anyOf`,
`oneOf` loop in source order, then `not`, then `next`. -/

def stageRank : LocStep → Nat
  | .key "match" => 0
  | .key "rewrite" => 0
  | .key "type" => 0
  | .key "valid" => 0
  | .key "validMeta" => 0
  | .key "then" => 1
  | .key "else" => 1
  | .key "allOf" => 2
  | .key "anyOf" => 3
  | .key "oneOf" => 4
  | .key "not" => 5
  | .key "next" => 6
  | _ => 7

/-- The stage rank of an error key, as seen from the node location `loc`:
the rank of the first location step below `loc`. -/
def keyRankAt (loc k : List LocStep) : Nat :=
  match k.drop loc.length with
  | [] => 0
  | s :: _ => stageRank s

theorem keyRankAt_append (loc : List LocStep) (s : LocStep) (rest : List LocStep) :
    keyRankAt loc (loc ++ s :: rest) = stageRank s := by
  unfold keyRankAt
  rw [List.drop_left]

/-- All keys of `e` have stage rank at most `hi` below `loc`, and the ranks
are nondecreasing along `e`. -/
def RankedUpTo (loc : List LocStep) (hi : Nat) (e : DSValidationErrors) : Prop :=
  (∀ kv ∈ e, keyRankAt loc kv.1 ≤ hi) ∧
  List.Pairwise (fun a b => keyRankAt loc a.1 ≤ keyRankAt loc b.1) e

theorem RankedUpTo_nil (loc : List LocStep) (hi : Nat) : RankedUpTo loc hi [] :=
  ⟨fun kv hkv => absurd hkv (List.not_mem_nil kv), List.Pairwise.nil⟩

theorem RankedUpTo_mono (loc : List LocStep) (h1 h2 : Nat) (e : DSValidationErrors)
    (h : h1 ≤ h2) (ho : RankedUpTo loc h1 e) : RankedUpTo loc h2 e :=
  ⟨fun kv hkv => Nat.le_trans (ho.1 kv hkv) h, ho.2⟩

theorem RankedUpTo_updateAssoc (loc : List LocStep) (hi : Nat) (e : DSValidationErrors)
    (k : List LocStep) (v : DSValidationError)
    (ho : RankedUpTo loc hi e) (hk : hi ≤ keyRankAt loc k) :
    RankedUpTo loc (keyRankAt loc k) (updateAssoc e k v) := by
  obtain ⟨hbd, hpw⟩ := ho
  unfold updateAssoc
  split
  · constructor
    · intro kv hkv
      rcases List.mem_map.mp hkv with ⟨kv0, h0, heq⟩
      by_cases hc : kv0.1 = k
      · rw [if_pos hc] at heq
        rw [← heq]
      · rw [if_neg hc] at heq
        rw [← heq]
        exact Nat.le_trans (hbd kv0 h0) hk
    · refine List.Pairwise.map _ ?_ hpw
      intro a b hab
      have ha : (if a.1 = k then (k, v) else a).1 = a.1 := by
        by_cases h1 : a.1 = k
        · rw [if_pos h1]
          exact h1.symm
        · rw [if_neg h1]
      have hb : (if b.1 = k then (k, v) else b).1 = b.1 := by
        by_cases h1 : b.1 = k
        · rw [if_pos h1]
          exact h1.symm
        · rw [if_neg h1]
      rw [ha, hb]
      exact hab
  · constructor
    · intro kv hkv
      rcases List.mem_append.mp hkv with h1 | h1
      · exact Nat.le_trans (hbd kv h1) hk
      · rw [List.mem_singleton.mp h1]
    · rw [List.pairwise_append]
      refine ⟨hpw, List.pairwise_singleton _ _, ?_⟩
      intro a ha b hb
      rw [List.mem_singleton.mp hb]
      exact Nat.le_trans (hbd a ha) hk

theorem RankedUpTo_updateAll (loc : List LocStep) (rS : Nat) :
    ∀ (upd e : DSValidationErrors), RankedUpTo loc rS e →
      (∀ kv ∈ upd, keyRankAt loc kv.1 = rS) → RankedUpTo loc rS (updateAll e upd) := by
  intro upd
  induction upd with
  | nil => intro e he _; exact he
  | cons u us ih =>
    intro e he hupd
    have h1 : RankedUpTo loc (keyRankAt loc u.1) (updateAssoc e u.1 u.2) :=
      RankedUpTo_updateAssoc loc rS e u.1 u.2 he
        (Nat.le_of_eq (hupd u (List.mem_cons_self u us)).symm)
    rw [hupd u (List.mem_cons_self u us)] at h1
    exact ih (updateAssoc e u.1 u.2) h1
      (fun kv hkv => hupd kv (List.mem_cons_of_mem u hkv))

theorem RankedUpTo_add_errors (loc : List LocStep) (rS : Nat) (c : DSEvalCtx)
    (ds : List DSValidationErrors)
    (hc : RankedUpTo loc rS c.errors)
    (hds : ∀ d ∈ ds, ∀ kv ∈ d, keyRankAt loc kv.1 = rS) :
    RankedUpTo loc rS (DSEvalCtx.add_errors c ds).errors := by
  have haux : ∀ (ds0 : List DSValidationErrors) (e : DSValidationErrors),
      RankedUpTo loc rS e → (∀ d ∈ ds0, ∀ kv ∈ d, keyRankAt loc kv.1 = rS) →
      RankedUpTo loc rS (ds0.foldl (fun acc d => updateAll acc d) e) := by
    intro ds0
    induction ds0 with
    | nil => intro e he _; exact he
    | cons d rest ih =>
      intro e he hds0
      exact ih (updateAll e d)
        (RankedUpTo_updateAll loc rS d e he (hds0 d (List.mem_cons_self d rest)))
        (fun d2 hd2 => hds0 d2 (List.mem_cons_of_mem d hd2))
  exact haux ds c.errors hc hds

theorem add_error_ord (loc : List LocStep) (c : DSEvalCtx) (err : ErrVal) (s : LocStep)
    (pa : Option String) (hi : Nat) (hloc : c.location = loc)
    (hc : RankedUpTo loc hi c.errors) (hs : hi ≤ stageRank s) :
    RankedUpTo loc (stageRank s) (DSEvalCtx.add_error c err (some s) pa).errors := by
  have hk : hi ≤ keyRankAt loc (loc ++ [s]) := by
    rw [keyRankAt_append]
    exact hs
  cases pa with
  | none =>
    have h := RankedUpTo_updateAssoc loc hi c.errors (loc ++ [s])
      ⟨c.filePath, err⟩ hc hk
    rw [keyRankAt_append] at h
    show RankedUpTo loc (stageRank s)
      (updateAssoc c.errors (c.location ++ [s]) ⟨c.filePath, err⟩)
    rw [hloc]
    exact h
  | some p0 =>
    have h := RankedUpTo_updateAssoc loc hi c.errors (loc ++ [s])
      ⟨if p0 = "" then c.filePath else p0, err⟩ hc hk
    rw [keyRankAt_append] at h
    show RankedUpTo loc (stageRank s)
      (updateAssoc c.errors (c.location ++ [s]) ⟨if p0 = "" then c.filePath else p0, err⟩)
    rw [hloc]
    exact h

theorem ruleAddError_ord (loc : List LocStep) (psl : PathSlice) (c : DSEvalCtx)
    (err : ErrVal) (s : LocStep) (pa : Option String) (hi : Nat)
    (hloc : c.location = loc) (hc : RankedUpTo loc hi c.errors)
    (hs : hi ≤ stageRank s) :
    RankedUpTo loc (stageRank s) (ruleAddError none psl c err (some s) pa).errors :=
  add_error_ord loc c err s pa hi hloc hc hs

theorem validStage_ord_branch (loc : List LocStep) (psl : PathSlice) (c : DSEvalCtx)
    (err : ErrVal) (key : String) (pa : Option String) (hloc : c.location = loc)
    (hc : RankedUpTo loc 0 c.errors) (hkey : stageRank (.key key) = 0) :
    RankedUpTo loc 0 (ruleAddError none psl c err (some (.key key)) pa).errors := by
  have h := ruleAddError_ord loc psl c err (.key key) pa 0 hloc hc (Nat.zero_le _)
  rw [hkey] at h
  exact h

theorem validStage_ord (loc : List LocStep) (env : JsonEnv) (psl : PathSlice)
    (key : String) (vref : Option String) (ivm : Bool) (path : String)
    (f d : Bool) (c : DSEvalCtx) (hloc : c.location = loc)
    (hc : RankedUpTo loc 0 c.errors) (hkey : stageRank (.key key) = 0) :
    RankedUpTo loc 0 (validStage env none psl key vref ivm path f d c).errors := by
  unfold validStage
  rcases vref with _ | vr
  · exact hc
  · simp only
    repeat' split
    all_goals first
      | exact hc
      | exact validStage_ord_branch loc psl c _ key _ hloc hc hkey

theorem stage2_ord (loc : List LocStep) (V : DSValidator) (path : String)
    (rl : RuleF DSRule) (c : DSEvalCtx) (psl : PathSlice)
    (hd : rl.description = none) (hloc : c.location = loc)
    (hc : RankedUpTo loc 0 c.errors) :
    RankedUpTo loc 0 (stage2 V path rl c psl).errors := by
  unfold stage2
  simp only [hd]
  refine validStage_ord loc _ _ _ _ _ _ _ _ _ ?_ ?_ rfl
  · rw [validStage_location]
    split
    · split
      · rw [ruleAddError_location]
        exact hloc
      · exact hloc
    · exact hloc
  · refine validStage_ord loc _ _ _ _ _ _ _ _ _ ?_ ?_ rfl
    · split
      · split
        · rw [ruleAddError_location]
          exact hloc
        · exact hloc
      · exact hloc
    · split
      · split
        · exact validStage_ord_branch loc psl c _ "type" _ hloc hc rfl
        · exact hc
      · exact hc

theorem subErrKey_rank (loc : List LocStep) (s : LocStep) (x : List LocStep)
    (h : loc ++ [s] <+: x) : keyRankAt loc x = stageRank s := by
  obtain ⟨t, ht⟩ := h
  rw [← ht, List.append_assoc]
  simp only [List.cons_append, List.nil_append]
  rw [keyRankAt_append]

theorem evalITE_details_ord (loc : List LocStep) (V : DSValidator) (path : String)
    (c : DSEvalCtx) (r : DSRule) (s : LocStep) (hs : stageRank s = 1)
    (hloc : c.location = loc) (hc : RankedUpTo loc 1 c.errors) :
    RankedUpTo loc 1
      ((DSEvalCtx.add_errors { c with failed := true }
        [(validatePath V path r (c.descend r (some path) (some s))).2.errors]).errors) := by
  refine RankedUpTo_add_errors loc 1 _ _ hc ?_
  intro d hd kv hkv
  rw [List.mem_singleton.mp hd] at hkv
  rcases validatePath_keys V path r (c.descend r (some path) (some s)) kv.1
      (List.mem_map_of_mem Prod.fst hkv) with h2 | h2
  · rw [descend_errors] at h2
    exact absurd h2 (List.not_mem_nil kv.1)
  · rw [descend_location_some, hloc] at h2
    rw [subErrKey_rank loc s kv.1 h2]
    exact hs

theorem evalITE_ord (loc : List LocStep) (V : DSValidator) (path : String)
    (rl : RuleF DSRule) (c : DSEvalCtx) (hloc : c.location = loc)
    (hc : RankedUpTo loc 1 c.errors) :
    RankedUpTo loc 1 (evalITE V path rl c).errors := by
  unfold evalITE
  rcases hif : rl.if_ with _ | ifR
  · simp only [hif]
    exact hc
  · simp only [hif]
    split
    · rcases hth : rl.then_ with _ | thenR
      · simp only [hth]
        exact hc
      · simp only [hth]
        split
        · split
          · exact evalITE_details_ord loc V path c thenR (.key "then") rfl hloc hc
          · exact hc
        · exact hc
    · rcases hel : rl.else_ with _ | elseR
      · simp only [hel]
        exact hc
      · simp only [hel]
        split
        · split
          · exact evalITE_details_ord loc V path c elseR (.key "else") rfl hloc hc
          · exact hc
        · exact hc

theorem evalOp_details_ord (loc : List LocStep) (V : DSValidator) (path : String)
    (rl : RuleF DSRule) (psl : PathSlice) (op : String) (val : List DSRule)
    (c : DSEvalCtx) (rS : Nat) (err : ErrVal) (hloc : c.location = loc)
    (hkey : stageRank (.key op) = rS) (hc : RankedUpTo loc rS c.errors) :
    RankedUpTo loc rS
      ((DSEvalCtx.add_errors (ruleAddError none psl c err (some (.key op)) none)
        (evalSubRules V path (decide (op = "anyOf")) val 0
          (c.descend (.node rl) none (some (.key op)))).2).errors) := by
  refine RankedUpTo_add_errors loc rS _ _ ?_ ?_
  · have h := ruleAddError_ord loc psl c err (.key op) none rS hloc hc
      (Nat.le_of_eq hkey.symm)
    rw [hkey] at h
    exact h
  · intro d hd kv hkv
    have h2 := evalSubRules_keys V path (op = "anyOf") val 0
      (c.descend (.node rl) none (some (.key op)))
      (fun r _ p2 ctx2 => validatePath_keys V p2 r ctx2) d hd kv.1
      (List.mem_map_of_mem Prod.fst hkv)
    rw [descend_location_some, hloc] at h2
    rw [subErrKey_rank loc (.key op) kv.1 h2]
    exact hkey

theorem evalOp_ord (loc : List LocStep) (V : DSValidator) (path : String)
    (rl : RuleF DSRule) (psl : PathSlice) (op : String) (val : List DSRule)
    (c : DSEvalCtx) (rS : Nat) (hd : rl.description = none)
    (hloc : c.location = loc) (hkey : stageRank (.key op) = rS)
    (hc : RankedUpTo loc rS c.errors) :
    RankedUpTo loc rS (evalOp V path rl psl op val c).errors := by
  unfold evalOp
  simp only [hd]
  repeat' split
  all_goals first
    | exact hc
    | exact evalOp_details_ord loc V path rl psl op val c rS _ hloc hkey hc
    | (rw [← hkey]; exact ruleAddError_ord loc psl c _ (.key op) none rS hloc hc (Nat.le_of_eq hkey.symm))

theorem evalNot_ord (loc : List LocStep) (V : DSValidator) (path : String)
    (rl : RuleF DSRule) (psl : PathSlice) (c : DSEvalCtx)
    (hd : rl.description = none) (hloc : c.location = loc)
    (hc : RankedUpTo loc 5 c.errors) :
    RankedUpTo loc 5 (evalNot V path rl psl c).errors := by
  unfold evalNot
  rcases hnot : rl.not_ with _ | notR
  · simp only [hnot]
    exact hc
  · simp only [hnot, hd]
    split
    · have h := ruleAddError_ord loc psl c
        (.msg "Negated sub-rule satisfied, but should have failed") (.key "not") none 5
        hloc hc (by decide)
      rw [show stageRank (LocStep.key "not") = 5 from rfl] at h
      exact h
    · exact hc

theorem evalNext_details_ord (loc : List LocStep) (V : DSValidator)
    (nextPath : String) (c : DSEvalCtx) (r : DSRule) (hloc : c.location = loc)
    (hc : RankedUpTo loc 6 c.errors) :
    RankedUpTo loc 6
      ((DSEvalCtx.add_errors c
        [(validatePath V nextPath r
          (c.descend r (some nextPath) (some (.key "next")))).2.errors]).errors) := by
  refine RankedUpTo_add_errors loc 6 _ _ hc ?_
  intro d hd kv hkv
  rw [List.mem_singleton.mp hd] at hkv
  rcases validatePath_keys V nextPath r (c.descend r (some nextPath) (some (.key "next")))
      kv.1 (List.mem_map_of_mem Prod.fst hkv) with h2 | h2
  · rw [descend_errors] at h2
    exact absurd h2 (List.not_mem_nil kv.1)
  · rw [descend_location_some, hloc] at h2
    rw [subErrKey_rank loc (.key "next") kv.1 h2]
    decide

theorem evalNext_ord (loc : List LocStep) (V : DSValidator) (path : String)
    (rl : RuleF DSRule) (nextPath : String) (c : DSEvalCtx)
    (hloc : c.location = loc) (hc : RankedUpTo loc 6 c.errors) :
    RankedUpTo loc 6 (evalNext V path rl nextPath c).2.errors := by
  unfold evalNext
  rcases hnx : rl.next with _ | nextR
  · simp only [hnx]
    exact hc
  · simp only [hnx]
    repeat' split
    all_goals first
      | exact hc
      | exact evalNext_details_ord loc V nextPath c nextR hloc hc

theorem validateNode_ord (V : DSValidator) (path : String) (rl : RuleF DSRule)
    (c0 : DSEvalCtx) (psl : PathSlice) (nextPath : String)
    (hd : rl.description = none) (hc : RankedUpTo c0.location 0 c0.errors) :
    List.Pairwise (fun a b => keyRankAt c0.location a.1 ≤ keyRankAt c0.location b.1)
      (validateNode V path rl c0 psl nextPath).2.errors := by
  have h3 : RankedUpTo c0.location 0 (stage2 V path rl c0 psl).errors :=
    stage2_ord c0.location V path rl c0 psl hd rfl hc
  have l3 : (stage2 V path rl c0 psl).location = c0.location :=
    stage2_location _ _ _ _ _
  have h4 : RankedUpTo c0.location 1
      (evalITE V path rl (stage2 V path rl c0 psl)).errors :=
    evalITE_ord c0.location V path rl _ l3
      (RankedUpTo_mono c0.location 0 1 _ (by decide) h3)
  have l4 : (evalITE V path rl (stage2 V path rl c0 psl)).location = c0.location := by
    rw [evalITE_location]
    exact l3
  have h5 : RankedUpTo c0.location 2
      (evalOp V path rl psl "allOf" rl.allOf
        (evalITE V path rl (stage2 V path rl c0 psl))).errors :=
    evalOp_ord c0.location V path rl psl "allOf" rl.allOf _ 2 hd l4 rfl
      (RankedUpTo_mono c0.location 1 2 _ (by decide) h4)
  have l5 : (evalOp V path rl psl "allOf" rl.allOf
      (evalITE V path rl (stage2 V path rl c0 psl))).location = c0.location := by
    rw [evalOp_location]
    exact l4
  have h6 : RankedUpTo c0.location 3
      (evalOp V path rl psl "anyOf" rl.anyOf
        (evalOp V path rl psl "allOf" rl.allOf
          (evalITE V path rl (stage2 V path rl c0 psl)))).errors :=
    evalOp_ord c0.location V path rl psl "anyOf" rl.anyOf _ 3 hd l5 rfl
      (RankedUpTo_mono c0.location 2 3 _ (by decide) h5)
  have l6 : (evalOp V path rl psl "anyOf" rl.anyOf
      (evalOp V path rl psl "allOf" rl.allOf
        (evalITE V path rl (stage2 V path rl c0 psl)))).location = c0.location := by
    rw [evalOp_location]
    exact l5
  have h7 : RankedUpTo c0.location 4
      (evalOp V path rl psl "oneOf" rl.oneOf
        (evalOp V path rl psl "anyOf" rl.anyOf
          (evalOp V path rl psl "allOf" rl.allOf
            (evalITE V path rl (stage2 V path rl c0 psl))))).errors :=
    evalOp_ord c0.location V path rl psl "oneOf" rl.oneOf _ 4 hd l6 rfl
      (RankedUpTo_mono c0.location 3 4 _ (by decide) h6)
  have l7 : (evalOp V path rl psl "oneOf" rl.oneOf
      (evalOp V path rl psl "anyOf" rl.anyOf
        (evalOp V path rl psl "allOf" rl.allOf
          (evalITE V path rl (stage2 V path rl c0 psl))))).location = c0.location := by
    rw [evalOp_location]
    exact l6
  have h8 : RankedUpTo c0.location 5
      (evalNot V path rl psl
        (evalOp V path rl psl "oneOf" rl.oneOf
          (evalOp V path rl psl "anyOf" rl.anyOf
            (evalOp V path rl psl "allOf" rl.allOf
              (evalITE V path rl (stage2 V path rl c0 psl)))))).errors :=
    evalNot_ord c0.location V path rl psl _ hd l7
      (RankedUpTo_mono c0.location 4 5 _ (by decide) h7)
  have l8 : (evalNot V path rl psl
      (evalOp V path rl psl "oneOf" rl.oneOf
        (evalOp V path rl psl "anyOf" rl.anyOf
          (evalOp V path rl psl "allOf" rl.allOf
            (evalITE V path rl (stage2 V path rl c0 psl)))))).location = c0.location := by
    rw [evalNot_location]
    exact l7
  unfold validateNode
  simp only
  split
  · exact h3.2
  · split
    · exact h8.2
    · exact (evalNext_ord c0.location V path rl nextPath _ l8
        (RankedUpTo_mono c0.location 5 6 _ (by decide) h8)).2

/-- C7 fails as stated: the combinator loop of `validate_path` runs in the
source order `allOf`, `anyOf`, `oneOf` — not `allOf`, `oneOf`, `anyOf` as
claimed.  A rule with failing `anyOf` and `oneOf` branches records the
`anyOf` errors before the `oneOf` errors. -/
theorem C7_counterexample :
    ((validatePath trivV "p"
        (.node { anyOf := [.bool false], oneOf := [.bool false, .bool false] })
        sampleCtx).2.errors.map Prod.fst) =
      [[LocStep.key "x", .key "anyOf"], [.key "x", .key "anyOf", .idx 0],
       [.key "x", .key "oneOf"], [.key "x", .key "oneOf", .idx 0],
       [.key "x", .key "oneOf", .idx 1]] := by
  simp [validatePath, sampleCtx, validateNode, stage2, validStage, evalITE, evalOp,
    evalSubRules, evalNot, evalNext, DSEvalCtx.descend, DSEvalCtx.add_error,
    DSEvalCtx.add_errors, ruleAddError, updateAssoc, updateAll, trivAdapter]

/-- Amended C7: for an object rule with no `description` override, evaluated
in a context with an empty error dict, the recorded error keys appear in
nondecreasing stage order below the node's location, where the stages are
ranked: primitive constraints (`type`/`valid`/`validMeta`), then
`if`/`then`/`else`, then `allOf`, then `anyOf`, then `oneOf`, then `not`,
then `next` — the loop order of the source, with `anyOf` before `oneOf`. -/
theorem C7_combinator_order_amended (V : DSValidator) (path : String)
    (rl : RuleF DSRule) (ctx : DSEvalCtx)
    (he : ctx.errors = []) (hd : rl.description = none) :
    List.Pairwise (· ≤ ·)
      ((validatePath V path (.node rl) ctx).2.errors.map
        (fun kv => keyRankAt ctx.location kv.1)) := by
  rw [List.pairwise_map]
  have hc : RankedUpTo ctx.location 0 ctx.errors := by
    rw [he]
    exact RankedUpTo_nil _ _
  simp only [validatePath]
  split
  · split
    · exact validateNode_ord V path rl ctx _ _ hd hc
    · simp only [hd]
      exact (add_error_ord ctx.location ctx _
        (.key (if rl.rewrite.isSome = true then "rewrite" else "match")) none 0 rfl
        hc (Nat.zero_le _)).2
  · exact validateNode_ord V path rl ctx _ _ hd hc

theorem C7_combinator_order_amended_witness :
    List.Pairwise (· ≤ ·)
      ((validatePath trivV "p"
          (.node { anyOf := [DSRule.bool false],
                   oneOf := [DSRule.bool false, DSRule.bool false] })
          sampleCtx).2.errors.map
        (fun kv => keyRankAt sampleCtx.location kv.1)) :=
  C7_combinator_order_amended trivV "p"
    { anyOf := [DSRule.bool false], oneOf := [DSRule.bool false, DSRule.bool false] }
    sampleCtx rfl rfl

end Dirschema
